import Mathlib

/-
Verification of the core of the information-retrieval project: the
text-normalization pipeline (`DataCleaner.clean_text`,
`SearchEngine.preprocess_query`), the inverted-index builder
(`InvertedIndexBuilder.build_inverted_index`) and the ranked query engine
(`SearchEngine.search`, `SearchEngine.show_post_info`).

Strings are modelled as `List Char`.  The NLTK components that both pipelines
share (the Porter stemmer and the English stopword set) are external library
objects, so they are modelled as parameters (`Nltk`); both the cleaner and the
query engine receive the same parameter, exactly as both construct the same
`PorterStemmer()` / `stopwords.words('english')` objects.  `math.log` is
likewise modelled as a parameter `mlog : ℚ → ℚ`.  Character classes follow the
ASCII meaning of the Python predicates (the corpus pipeline strips non-ASCII
characters before any predicate is consulted).
-/

namespace IR

/-! ### Python character classes -/

/-- Python `\s` on ASCII text (space, tab, newline, carriage return,
vertical tab, form feed): the characters the `WhitespaceTokenizer`
splits on. -/
def isPySpace (c : Char) : Bool :=
  c.toNat = 32 || (9 ≤ c.toNat && c.toNat ≤ 13)

/-- Membership in Python `string.punctuation`
(ASCII 33-47, 58-64, 91-96, 123-126). -/
def isPunct (c : Char) : Bool :=
  (33 ≤ c.toNat && c.toNat ≤ 47) || (58 ≤ c.toNat && c.toNat ≤ 64) ||
  (91 ≤ c.toNat && c.toNat ≤ 96) || (123 ≤ c.toNat && c.toNat ≤ 126)

/-- An ASCII letter (`A`-`Z` or `a`-`z`). -/
def isAsciiAlpha (c : Char) : Bool :=
  (65 ≤ c.toNat && c.toNat ≤ 90) || (97 ≤ c.toNat && c.toNat ≤ 122)

/-- An ASCII digit (`0`-`9`): Python `\d` / `str.isdigit` on ASCII text. -/
def isPyDigit (c : Char) : Bool := 48 ≤ c.toNat && c.toNat ≤ 57

/-- Python `\w` on ASCII text: letters, digits and underscore. -/
def isWordChar (c : Char) : Bool := isAsciiAlpha c || isPyDigit c || c = '_'

/-- A lowercase ASCII letter. -/
def isLowerAlpha (c : Char) : Bool := 97 ≤ c.toNat && c.toNat ≤ 122

/-- Python `str.isalpha` for a token (ASCII range): nonempty and
all characters alphabetic. -/
def pyIsAlpha (w : List Char) : Bool :=
  match w with
  | [] => false
  | _ => w.all isAsciiAlpha

/-! ### Regex substitutions used by the pipelines -/

theorem length_dropWhile_le (p : Char → Bool) :
    ∀ l : List Char, (l.dropWhile p).length ≤ l.length
  | [] => by simp
  | c :: rest => by
    rw [List.dropWhile]
    split
    · exact Nat.le_succ_of_le (length_dropWhile_le p rest)
    · simp

/-- Match a literal pattern at the head of the input; return the rest. -/
def matchLit : List Char → List Char → Option (List Char)
  | [], l => some l
  | _ :: _, [] => none
  | p :: ps, c :: cs => if c = p then matchLit ps cs else none

theorem matchLit_length : ∀ p l r, matchLit p l = some r → r.length + p.length = l.length
  | [], _, r, h => by simp [matchLit] at h; simp [h]
  | _ :: _, [], _, h => by simp [matchLit] at h
  | p :: ps, c :: cs, r, h => by
    simp only [matchLit] at h
    split at h
    · have := matchLit_length ps cs r h
      simp [← this]; omega
    · exact absurd h (by simp)

theorem matchLit_mem : ∀ p l r, matchLit p l = some r → ∀ c ∈ p, c ∈ l
  | [], _, _, _ => by simp
  | _ :: _, [], _, h => by simp [matchLit] at h
  | p :: ps, c :: cs, r, h => by
    simp only [matchLit] at h
    split at h
    · intro d hd
      rcases List.mem_cons.1 hd with h1 | h1
      · subst h1; simp_all
      · exact List.mem_cons_of_mem _ (matchLit_mem ps cs r h d h1)
    · exact absurd h (by simp)

/-- The scheme alternatives of the regex `https?://\S+|www\.\S+`, greedy
alternation order as in Python `re`. -/
def matchScheme (l : List Char) : Option (List Char) :=
  match matchLit ("https://".toList) l with
  | some r => some r
  | none =>
    match matchLit ("http://".toList) l with
    | some r => some r
    | none => matchLit ("www.".toList) l

/-- Attempt to match the whole URL regex at the head of the input: a scheme
followed by a nonempty greedy run of non-space characters.  Returns the
remainder of the input after the match. -/
def matchUrlAt (l : List Char) : Option (List Char) :=
  match matchScheme l with
  | none => none
  | some r =>
    match r with
    | [] => none
    | c :: _ => if isPySpace c then none else some (r.dropWhile (fun d => !isPySpace d))

theorem matchScheme_length {l r : List Char} (h : matchScheme l = some r) :
    r.length + 4 ≤ l.length := by
  unfold matchScheme at h
  split at h
  · cases h
    have := matchLit_length _ _ _ (by assumption)
    simp at this; omega
  · split at h
    · cases h
      have := matchLit_length _ _ _ (by assumption)
      simp at this; omega
    · have := matchLit_length _ _ _ h
      simp at this; omega

theorem matchUrlAt_length {l r : List Char} (h : matchUrlAt l = some r) :
    r.length < l.length := by
  unfold matchUrlAt at h
  cases hs : matchScheme l with
  | none => simp [hs] at h
  | some r' =>
    simp only [hs] at h
    cases r' with
    | nil => simp at h
    | cons c t =>
      by_cases hc : isPySpace c
      · simp [hc] at h
      · simp only [hc, if_neg, Bool.false_eq_true, ite_false] at h
        have h1 := matchScheme_length hs
        have h' := Option.some.inj h
        have h2 : r.length ≤ (c :: t).length := by
          rw [← h']; exact IR.length_dropWhile_le _ _
        simp at h1 h2; omega

/-- The left-to-right scan of `re.sub(r'https?://\S+|www\.\S+', '', text)`,
with the length of the not-yet-consumed input as structural fuel (every step
consumes at least one character, so the fuel never runs out). -/
def subUrlGo : Nat → List Char → List Char
  | 0, _ => []
  | _ + 1, [] => []
  | n + 1, c :: rest =>
    match matchUrlAt (c :: rest) with
    | some r => subUrlGo n r
    | none => c :: subUrlGo n rest

/-- `re.sub(r'https?://\S+|www\.\S+', '', text)`: left-to-right scan removing
every match of the URL regex. -/
def subUrl (l : List Char) : List Char := subUrlGo l.length l

theorem subUrlGo_nil : ∀ n, subUrlGo n [] = []
  | 0 => rfl
  | _ + 1 => rfl

theorem subUrlGo_fuel :
    ∀ n m l, l.length ≤ n → l.length ≤ m → subUrlGo n l = subUrlGo m l := by
  intro n
  induction n with
  | zero =>
    intro m l hn _
    have : l = [] := List.eq_nil_of_length_eq_zero (Nat.le_zero.1 hn)
    subst this
    rw [subUrlGo_nil, subUrlGo_nil]
  | succ n ih =>
    intro m l hn hm
    cases l with
    | nil => rw [subUrlGo_nil, subUrlGo_nil]
    | cons c rest =>
      cases m with
      | zero => simp at hm
      | succ m =>
        show (match matchUrlAt (c :: rest) with
            | some r => subUrlGo n r
            | none => c :: subUrlGo n rest) =
          (match matchUrlAt (c :: rest) with
            | some r => subUrlGo m r
            | none => c :: subUrlGo m rest)
        cases hu : matchUrlAt (c :: rest) with
        | some r =>
          have hr := matchUrlAt_length hu
          simp only [List.length_cons] at hn hm hr
          exact ih m r (by omega) (by omega)
        | none =>
          simp only [List.length_cons] at hn hm
          rw [ih m rest (by omega) (by omega)]

theorem subUrl_cons_some {c : Char} {rest r : List Char}
    (h : matchUrlAt (c :: rest) = some r) : subUrl (c :: rest) = subUrl r := by
  show subUrlGo (rest.length + 1) (c :: rest) = subUrl r
  have hr := matchUrlAt_length h
  simp only [List.length_cons] at hr
  show (match matchUrlAt (c :: rest) with
      | some r => subUrlGo rest.length r
      | none => c :: subUrlGo rest.length rest) = subUrl r
  rw [h]
  exact subUrlGo_fuel _ _ _ (by omega) (by omega)

theorem subUrl_cons_none {c : Char} {rest : List Char}
    (h : matchUrlAt (c :: rest) = none) : subUrl (c :: rest) = c :: subUrl rest := by
  show (match matchUrlAt (c :: rest) with
      | some r => subUrlGo rest.length r
      | none => c :: subUrlGo rest.length rest) = c :: subUrl rest
  rw [h]
  rfl

/-- The test of the regex `[@#]\w+` at the current position: an `@` or `#`
followed by at least one word character. -/
def mentionHead (c : Char) (rest : List Char) : Bool :=
  (c = '@' || c = '#') && (match rest with | r :: _ => isWordChar r | [] => false)

/-- The scan of `re.sub(r'[@#]\w+', '', text)`, fuelled like `subUrlGo`. -/
def subMentionGo : Nat → List Char → List Char
  | 0, _ => []
  | _ + 1, [] => []
  | n + 1, c :: rest =>
    if mentionHead c rest then
      subMentionGo n (rest.dropWhile isWordChar)
    else
      c :: subMentionGo n rest

/-- `re.sub(r'[@#]\w+', '', text)`: remove each `@`/`#` sigil together with the
following nonempty run of word characters. -/
def subMention (l : List Char) : List Char := subMentionGo l.length l

theorem subMentionGo_nil : ∀ n, subMentionGo n [] = []
  | 0 => rfl
  | _ + 1 => rfl

theorem subMentionGo_fuel :
    ∀ n m l, l.length ≤ n → l.length ≤ m → subMentionGo n l = subMentionGo m l := by
  intro n
  induction n with
  | zero =>
    intro m l hn _
    have : l = [] := List.eq_nil_of_length_eq_zero (Nat.le_zero.1 hn)
    subst this
    rw [subMentionGo_nil, subMentionGo_nil]
  | succ n ih =>
    intro m l hn hm
    cases l with
    | nil => rw [subMentionGo_nil, subMentionGo_nil]
    | cons c rest =>
      cases m with
      | zero => simp at hm
      | succ m =>
        simp only [List.length_cons] at hn hm
        show (if mentionHead c rest then
            subMentionGo n (rest.dropWhile isWordChar)
          else c :: subMentionGo n rest) =
          (if mentionHead c rest then
            subMentionGo m (rest.dropWhile isWordChar)
          else c :: subMentionGo m rest)
        split
        · have hd := IR.length_dropWhile_le isWordChar rest
          exact ih m _ (by omega) (by omega)
        · rw [ih m rest (by omega) (by omega)]

theorem subMention_cons_hit {c : Char} {rest : List Char}
    (h : mentionHead c rest = true) :
    subMention (c :: rest) = subMention (rest.dropWhile isWordChar) := by
  show (if mentionHead c rest then
      subMentionGo rest.length (rest.dropWhile isWordChar)
    else c :: subMentionGo rest.length rest) = subMention (rest.dropWhile isWordChar)
  rw [if_pos h]
  exact subMentionGo_fuel _ _ _ (IR.length_dropWhile_le _ _) (Nat.le_refl _)

theorem subMention_cons_miss {c : Char} {rest : List Char}
    (h : mentionHead c rest = false) :
    subMention (c :: rest) = c :: subMention rest := by
  show (if mentionHead c rest then
      subMentionGo rest.length (rest.dropWhile isWordChar)
    else c :: subMentionGo rest.length rest) = c :: subMention rest
  rw [h]
  rfl

/-! ### Tokenization -/

/-- The scan of `WhitespaceTokenizer().tokenize`, fuelled like `subUrlGo`. -/
def wsTokenizeGo : Nat → List Char → List (List Char)
  | 0, _ => []
  | _ + 1, [] => []
  | n + 1, c :: rest =>
    if isPySpace c then wsTokenizeGo n rest
    else (c :: rest.takeWhile (fun d => !isPySpace d)) ::
      wsTokenizeGo n (rest.dropWhile (fun d => !isPySpace d))

/-- `WhitespaceTokenizer().tokenize`: the maximal runs of non-whitespace
characters, in order. -/
def wsTokenize (l : List Char) : List (List Char) := wsTokenizeGo l.length l

theorem wsTokenizeGo_nil : ∀ n, wsTokenizeGo n [] = []
  | 0 => rfl
  | _ + 1 => rfl

theorem wsTokenizeGo_fuel :
    ∀ n m l, l.length ≤ n → l.length ≤ m → wsTokenizeGo n l = wsTokenizeGo m l := by
  intro n
  induction n with
  | zero =>
    intro m l hn _
    have : l = [] := List.eq_nil_of_length_eq_zero (Nat.le_zero.1 hn)
    subst this
    rw [wsTokenizeGo_nil, wsTokenizeGo_nil]
  | succ n ih =>
    intro m l hn hm
    cases l with
    | nil => rw [wsTokenizeGo_nil, wsTokenizeGo_nil]
    | cons c rest =>
      cases m with
      | zero => simp at hm
      | succ m =>
        simp only [List.length_cons] at hn hm
        show (if isPySpace c then wsTokenizeGo n rest
            else (c :: rest.takeWhile (fun d => !isPySpace d)) ::
              wsTokenizeGo n (rest.dropWhile (fun d => !isPySpace d))) =
          (if isPySpace c then wsTokenizeGo m rest
            else (c :: rest.takeWhile (fun d => !isPySpace d)) ::
              wsTokenizeGo m (rest.dropWhile (fun d => !isPySpace d)))
        split
        · exact ih m rest (by omega) (by omega)
        · have hd := IR.length_dropWhile_le (fun d => !isPySpace d) rest
          rw [ih m _ (by omega) (by omega)]

theorem wsTokenize_cons_space {c : Char} {rest : List Char} (h : isPySpace c = true) :
    wsTokenize (c :: rest) = wsTokenize rest := by
  show (if isPySpace c then wsTokenizeGo rest.length rest
      else (c :: rest.takeWhile (fun d => !isPySpace d)) ::
        wsTokenizeGo rest.length (rest.dropWhile (fun d => !isPySpace d))) =
    wsTokenize rest
  rw [h]
  rfl

theorem wsTokenize_cons_sub {c : Char} {rest : List Char} (h : isPySpace c = false) :
    wsTokenize (c :: rest) =
      (c :: rest.takeWhile (fun d => !isPySpace d)) ::
        wsTokenize (rest.dropWhile (fun d => !isPySpace d)) := by
  show (if isPySpace c then wsTokenizeGo rest.length rest
      else (c :: rest.takeWhile (fun d => !isPySpace d)) ::
        wsTokenizeGo rest.length (rest.dropWhile (fun d => !isPySpace d))) = _
  rw [h]
  simp only [Bool.false_eq_true, if_false, List.cons.injEq, true_and]
  exact wsTokenizeGo_fuel _ _ _ (IR.length_dropWhile_le _ _) (Nat.le_refl _)

/-! ### The shared NLTK components, as parameters -/

/-- The NLTK objects both pipelines construct identically: `PorterStemmer()`
and `set(stopwords.words('english'))`. -/
structure Nltk where
  stem : List Char → List Char
  isStop : List Char → Bool

/-! ### The two normalization pipelines -/

/-- `SearchEngine.preprocess_query` (Ranked_search.py, lines 49-57):
lowercase, strip mentions/hashtags, strip punctuation, whitespace-tokenize,
keep alphabetic non-stopwords, stem. -/
def preprocess_query (nl : Nltk) (Query : List Char) : List (List Char) :=
  let q := Query.map Char.toLower
  let q := subMention q
  let q := q.filter (fun c => !isPunct c)
  let tokens := wsTokenize q
  (tokens.filter (fun word => pyIsAlpha word && !nl.isStop word)).map nl.stem

/-- `DataCleaner.clean_text` (Data_Cleaner.py, lines 36-66): lowercase, strip
URLs, strip mentions/hashtags, strip digits, strip non-ASCII, strip
punctuation, whitespace-tokenize, keep non-stopword alphabetic tokens of
length > 2, stem, and join with single spaces. -/
def clean_text (nl : Nltk) (text : List Char) : List Char :=
  if text = [] then [] else
    let t := text.map Char.toLower
    let t := subUrl t
    let t := subMention t
    let t := t.filter (fun c => !isPyDigit c)
    let t := t.filter (fun c => c.toNat ≤ 127)
    let t := t.filter (fun c => !isPunct c)
    let tokens := wsTokenize t
    let cleaned :=
      (tokens.filter (fun word => !nl.isStop word && pyIsAlpha word && word.length > 2)).map nl.stem
    List.intercalate [' '] cleaned

/-- `InvertedIndexBuilder.tokenize_text` (Inverted_Index.py, lines 35-37). -/
def tokenize_text (text : List Char) : List (List Char) :=
  wsTokenize text

/-! ### Insertion-ordered dictionaries (Python `dict` semantics) -/

/-- A Python `dict`: an association list in insertion order. -/
abbrev Dict (K V : Type) := List (K × V)

/-- `d[k]` / `d.get(k)`: first (and only) binding of `k`. -/
def dlookup {K V : Type} [DecidableEq K] : Dict K V → K → Option V
  | [], _ => none
  | (k, v) :: rest, key => if key = k then some v else dlookup rest key

/-- `d[k] = v`: overwrite in place if present (keeping the position of the
key), append otherwise — exactly Python's insertion-order semantics. -/
def dupsert {K V : Type} [DecidableEq K] : Dict K V → K → V → Dict K V
  | [], key, val => [(key, val)]
  | (k, v) :: rest, key, val =>
    if key = k then (k, val) :: rest else (k, v) :: dupsert rest key val

/-- The keys of a dict, in insertion order. -/
def dkeys {K V : Type} (d : Dict K V) : List K := d.map Prod.fst

section DictLemmas

variable {K V : Type} [DecidableEq K]

theorem dlookup_dupsert_self (d : Dict K V) (k : K) (v : V) :
    dlookup (dupsert d k v) k = some v := by
  induction d with
  | nil => simp [dupsert, dlookup]
  | cons p rest ih =>
    obtain ⟨k', v'⟩ := p
    by_cases h : k = k' <;> simp [dupsert, dlookup, h, ih]

theorem dlookup_dupsert_ne (d : Dict K V) (k k' : K) (v : V) (hne : k' ≠ k) :
    dlookup (dupsert d k v) k' = dlookup d k' := by
  induction d with
  | nil => simp [dupsert, dlookup, hne]
  | cons p rest ih =>
    obtain ⟨k0, v0⟩ := p
    by_cases h : k = k0
    · subst h; simp [dupsert, dlookup, hne]
    · by_cases h' : k' = k0 <;> simp [dupsert, dlookup, h, h', ih]

theorem dkeys_dupsert_of_lookup_some (d : Dict K V) (k : K) (v : V)
    (h : (dlookup d k).isSome) : dkeys (dupsert d k v) = dkeys d := by
  induction d with
  | nil => simp [dlookup] at h
  | cons p rest ih =>
    obtain ⟨k0, v0⟩ := p
    by_cases hk : k = k0
    · simp [dupsert, hk, dkeys]
    · simp [dlookup, hk] at h
      simp [dupsert, hk, dkeys] at ih ⊢
      exact ih h

theorem dkeys_dupsert_of_lookup_none (d : Dict K V) (k : K) (v : V)
    (h : dlookup d k = none) : dkeys (dupsert d k v) = dkeys d ++ [k] := by
  induction d with
  | nil => simp [dupsert, dkeys]
  | cons p rest ih =>
    obtain ⟨k0, v0⟩ := p
    by_cases hk : k = k0
    · simp [dlookup, hk] at h
    · simp [dlookup, hk] at h
      simp [dupsert, hk, dkeys] at ih ⊢
      exact ih h

theorem dlookup_isSome_iff_mem_dkeys (d : Dict K V) (k : K) :
    (dlookup d k).isSome ↔ k ∈ dkeys d := by
  induction d with
  | nil => simp [dlookup, dkeys]
  | cons p rest ih =>
    obtain ⟨k0, v0⟩ := p
    by_cases hk : k = k0 <;> simp [dlookup, dkeys, hk, ih]

theorem dlookup_eq_none_iff_not_mem_dkeys (d : Dict K V) (k : K) :
    dlookup d k = none ↔ k ∉ dkeys d := by
  rw [← dlookup_isSome_iff_mem_dkeys, Option.not_isSome_iff_eq_none]

end DictLemmas

/-! ### Data model of the index artifacts -/

/-- One value of the global postings table
(`inverted_index[term] = {'df': …, 'tf_total': …, 'post_ids': […]}`). -/
structure PostingEntry where
  df : Nat
  tf_total : Nat
  post_ids : List (List Char)
deriving DecidableEq, Repr

/-- One value of the metadata artifact (`post_metadata[post_id]`). -/
structure PostMeta where
  max_tf_term : List Char
  max_tf : Nat
  len : Nat
  likes : Option Int
  comments : Option Int
  date : Option (List Char)
deriving DecidableEq, Repr

/-- One row of `fetch_all_posts_for_indexing()`: `post_id` (already as a
string, via `str(post['post_id'])`), `clean_text`, and the metadata fields. -/
structure Post where
  post_id : List Char
  clean_text : List Char
  likes : Option Int
  comments : Option Int
  date : Option (List Char)
deriving DecidableEq, Repr

/-- The three artifacts the builder produces: `inverted_index.json`,
`post_metadata.json`, and the per-post files `json_posts/post_<id>.json`. -/
structure BuildState where
  index : Dict (List Char) PostingEntry
  meta : Dict (List Char) PostMeta
  files : Dict (List Char) (Dict (List Char) Nat)
deriving DecidableEq, Repr

/-! ### The index builder -/

/-- `collections.Counter(tokens)` as an insertion-ordered dict:
keys in order of first occurrence, values the occurrence counts. -/
def bump (acc : Dict (List Char) Nat) (t : List Char) : Dict (List Char) Nat :=
  dupsert acc t ((dlookup acc t).getD 0 + 1)

def counter (tokens : List (List Char)) : Dict (List Char) Nat :=
  tokens.foldl bump []

/-- Python `max(freq, key=freq.get)` paired with `freq[max_tf_term]`:
the first key attaining the maximal value. -/
def maxPair : Dict (List Char) Nat → (List Char) × Nat
  | [] => ([], 0)
  | [x] => x
  | x :: y :: rest =>
    let m := maxPair (y :: rest)
    if x.2 ≥ m.2 then x else m

/-- The body of the `for term, tf in freq.items()` loop
(Inverted_Index.py, lines 74-78), acting on one `PostingEntry`:
`tf_total` is always incremented; `df`/`post_ids` only when the post id is
not yet present. -/
def updateEntry (pid : List Char) (tf : Nat) (e : PostingEntry) : PostingEntry :=
  let e1 : PostingEntry := { e with tf_total := e.tf_total + tf }
  if pid ∈ e1.post_ids then e1
  else { e1 with df := e1.df + 1, post_ids := e1.post_ids ++ [pid] }

/-- The whole accumulation loop over `freq.items()`, starting from the
`defaultdict` default `{'df': 0, 'tf_total': 0, 'post_ids': []}`. -/
def foldIndex (idx : Dict (List Char) PostingEntry) (freq : Dict (List Char) Nat)
    (pid : List Char) : Dict (List Char) PostingEntry :=
  freq.foldl
    (fun d tv => dupsert d tv.1 (updateEntry pid tv.2 ((dlookup d tv.1).getD ⟨0, 0, []⟩)))
    idx

/-- Processing of a single post inside `build_inverted_index`
(Inverted_Index.py, lines 52-83): a post with no tokens is skipped
(`continue`); otherwise the metadata entry is written, the postings table is
accumulated, and the per-post frequency artifact is (over)written. -/
def processPost (st : BuildState) (p : Post) : BuildState :=
  let tokens := tokenize_text p.clean_text
  if tokens = [] then st
  else
    let freq := counter tokens
    let len := (freq.map Prod.snd).sum
    let mx := maxPair freq
    { index := foldIndex st.index freq p.post_id
      meta := dupsert st.meta p.post_id
        ⟨mx.1, mx.2, len, p.likes, p.comments, p.date⟩
      files := dupsert st.files p.post_id freq }

/-- `InvertedIndexBuilder.build_inverted_index` over a fetched corpus:
the fold of `processPost` over the posts, starting from empty artifacts. -/
def build (posts : List Post) : BuildState :=
  posts.foldl processPost ⟨[], [], []⟩

/-- Tokens of a post, as the builder computes them. -/
def tokensOf (p : Post) : List (List Char) := tokenize_text p.clean_text

/-- The term frequency of `t` in post `p`. -/
def tfIn (p : Post) (t : List Char) : Nat := (tokensOf p).count t

/-! ### The query engine -/

/-- The loaded state of a `SearchEngine`: the two artifacts read in
`__init__`. -/
structure Engine where
  inverted_index : Dict (List Char) PostingEntry
  post_metadata : Dict (List Char) PostMeta
deriving DecidableEq, Repr

/-- `SearchEngine._load_json` (Ranked_search.py, lines 41-47): if the file
does not exist it prints `File not found` and returns `{}`; otherwise it
returns the parsed content. -/
def load_json {K V : Type} (file : Option (Dict K V)) : Dict K V :=
  match file with
  | none => []
  | some d => d

/-- `SearchEngine.__init__` (Ranked_search.py, lines 32-39): load both
artifacts through `_load_json`; a missing file contributes an empty dict. -/
def SearchEngine_init (indexFile : Option (Dict (List Char) PostingEntry))
    (metaFile : Option (Dict (List Char) PostMeta)) : Engine :=
  ⟨load_json indexFile, load_json metaFile⟩

/-- The filesystem of per-post artifacts `data_store/json_posts/post_<id>.json`
visible to `search`: `os.path.exists` is a key lookup. -/
abbrev Files := Dict (List Char) (Dict (List Char) Nat)

/-- The relation `sorted(…, key=lambda x: x[1], reverse=True)` sorts by:
score of the first argument at least the score of the second.  Python's sort
is stable, and `List.insertionSort` with this relation is the stable
descending sort. -/
def scoreGe (a b : (List Char) × ℚ) : Prop := b.2 ≤ a.2

instance : DecidableRel scoreGe := fun a b => inferInstanceAs (Decidable (b.2 ≤ a.2))

instance : IsTotal ((List Char) × ℚ) scoreGe := ⟨fun a b => le_total b.2 a.2⟩

instance : IsTrans ((List Char) × ℚ) scoreGe := ⟨fun _ _ _ h1 h2 => le_trans h2 h1⟩

/-- `sorted(scores.items(), key=lambda x: x[1], reverse=True)`. -/
def pySortDesc (l : List ((List Char) × ℚ)) : List ((List Char) × ℚ) :=
  List.insertionSort scoreGe l

/-- `idf = math.log(1 + total_docs / df) if df else 0` with
`total_docs = len(self.post_metadata)` (Ranked_search.py, lines 77-78). -/
def idfOf (mlog : ℚ → ℚ) (en : Engine) (e : PostingEntry) : ℚ :=
  if e.df ≠ 0 then mlog (1 + (en.post_metadata.length : ℚ) / (e.df : ℚ)) else 0

/-- One iteration of the scoring loop (Ranked_search.py, lines 80-91): read
the post's frequency artifact if it exists (otherwise print a warning and
skip), score `tf * idf`, and accumulate into the `scores` dict. -/
def scoreStep (fs : Files) (term : List Char) (idf : ℚ)
    (scores : Dict (List Char) ℚ) (PID : List Char) : Dict (List Char) ℚ :=
  match dlookup fs PID with
  | some freqs =>
    let tf : Nat := (dlookup freqs term).getD 0
    let tfidf : ℚ := (tf : ℚ) * idf
    dupsert scores PID ((dlookup scores PID).getD 0 + tfidf)
  | none => scores

/-- The whole scoring loop of `SearchEngine.search` over the term's
postings. -/
def scoreLoop (mlog : ℚ → ℚ) (en : Engine) (fs : Files) (term : List Char)
    (e : PostingEntry) : Dict (List Char) ℚ :=
  e.post_ids.foldl (scoreStep fs term (idfOf mlog en e)) []

/-- The observable outcome of one `search` call: the distinct printed signal
together with the returned list of post ids. -/
inductive SearchOutcome where
  /-- `⚠️ No valid term in the query after preprocessing.` and `return []`. -/
  | noValidTerm : SearchOutcome
  /-- `❗ Term '…' not found in index.` and `return []`. -/
  | termNotFound (term : List Char) : SearchOutcome
  /-- The ranked case: `return [PID for PID, _ in ranked[:20]]`. -/
  | ranked (term : List Char) (ids : List (List Char)) : SearchOutcome
deriving DecidableEq, Repr

/-- The list a `search` call returns: `[]` on both failure signals. -/
def resultIds : SearchOutcome → List (List Char)
  | .noValidTerm => []
  | .termNotFound _ => []
  | .ranked _ ids => ids

/-- `SearchEngine.search` (Ranked_search.py, lines 59-100). -/
def search (nl : Nltk) (mlog : ℚ → ℚ) (en : Engine) (fs : Files)
    (Query : List Char) : SearchOutcome :=
  match preprocess_query nl Query with
  | [] => .noValidTerm
  | term :: _ =>
    match dlookup en.inverted_index term with
    | none => .termNotFound term
    | some e =>
      let scores := scoreLoop mlog en fs term e
      let ranked := pySortDesc scores
      .ranked term ((ranked.take 20).map Prod.fst)

/-- The outcome of `SearchEngine.show_post_info` (Ranked_search.py, lines
102-110): print the metadata, or `⚠️ Post ID … not found in metadata.`. -/
inductive MetaOutcome where
  | found (data : PostMeta) : MetaOutcome
  | notFound (post_id : List Char) : MetaOutcome
deriving DecidableEq, Repr

/-- `SearchEngine.show_post_info`. -/
def show_post_info (en : Engine) (post_id : List Char) : MetaOutcome :=
  match dlookup en.post_metadata post_id with
  | some data => .found data
  | none => .notFound post_id

/-- The engine state that loads the artifacts a build produced. -/
def engineOf (st : BuildState) : Engine := ⟨st.index, st.meta⟩

/-- The per-document frequency-artifact entry for term `t` of document
`pid`: `freqs.get(term, 0)` of the post's artifact, `0` if the artifact is
absent. -/
def fileTf (files : Files) (pid t : List Char) : Nat :=
  match dlookup files pid with
  | some freqs => (dlookup freqs t).getD 0
  | none => 0

/-- The sum, over the given document ids, of the per-document
frequency-artifact entries for term `t`. -/
def artifactSum (files : Files) (t : List Char) (ids : List (List Char)) : Nat :=
  (ids.map (fun pid => fileTf files pid t)).sum

/-! ### Concrete fixtures for witnesses and counterexamples -/

/-- Shorthand for string literals as character lists. -/
def toL (s : String) : List Char := s.toList

/-- A concrete instantiation of the external NLTK components, consistent with
the real ones on the inputs of the concrete scenarios below: the identity
stemmer (Porter stemming fixes the short roots used there) and an empty
stopword set (none of those roots is an English stopword). -/
def nlId : Nltk := ⟨fun w => w, fun _ => false⟩

/-- A concrete instantiation of `math.log` for closed scenarios. -/
def mlog1 : ℚ → ℚ := fun _ => 1

/-- A two-token, one-token, empty-token corpus. -/
def posts1 : List Post :=
  [⟨toL "1", toL "aaa bbb aaa", none, none, none⟩,
   ⟨toL "2", toL "bbb ccc", none, none, none⟩,
   ⟨toL "3", toL "", none, none, none⟩]

/-- A post used to exercise duplicate processing of one document. -/
def pDup : Post := ⟨toL "1", toL "aaa", none, none, none⟩

/-- A metadata value for hand-built engine states. -/
def m0 : PostMeta := ⟨toL "abc", 1, 1, none, none, none⟩

/-- A hand-built engine state whose term `abc` has postings `["2", "1"]`
(in that order) over a two-document metadata artifact. -/
def st4 : Engine :=
  ⟨[(toL "abc", ⟨2, 2, [toL "2", toL "1"]⟩)], [(toL "1", m0), (toL "2", m0)]⟩

/-- Per-post artifacts where both posts hold the term `abc` once. -/
def fs4 : Files := [(toL "1", [(toL "abc", 1)]), (toL "2", [(toL "abc", 1)])]

/-- A hand-built engine state with a single posting for term `abc`. -/
def st3 : Engine := ⟨[(toL "abc", ⟨1, 1, [toL "1"]⟩)], [(toL "1", m0)]⟩

/-- Artifacts giving post `1` frequency 1 for the term `abc`. -/
def fsA : Files := [(toL "1", [(toL "abc", 1)])]

/-- Artifacts giving post `1` frequency 2 for the term `abc`. -/
def fsB : Files := [(toL "1", [(toL "abc", 2)])]

/-- The character alphabet on which the two normalization pipelines coincide:
a space or a lowercase ASCII letter. -/
def plainChar (c : Char) : Bool := c.toNat = 32 || isLowerAlpha c

/-! ### Agreement of the two pipelines on plain text -/

theorem toLower_plain {c : Char} (h : plainChar c = true) : c.toLower = c := by
  have hn : ¬(c.toNat ≥ 65 ∧ c.toNat ≤ 90) := by
    simp only [plainChar, isLowerAlpha, Bool.or_eq_true, Bool.and_eq_true,
      decide_eq_true_eq] at h
    omega
  simp only [Char.toLower]
  rw [if_neg hn]

theorem map_toLower_plain {l : List Char} (h : ∀ c ∈ l, plainChar c = true) :
    l.map Char.toLower = l := by
  induction l with
  | nil => rfl
  | cons c rest ih =>
    simp only [List.map_cons, List.cons.injEq]
    exact ⟨toLower_plain (h c (List.mem_cons_self c rest)),
      ih (fun d hd => h d (List.mem_cons_of_mem c hd))⟩

theorem matchLit_none_of_bad {l : List Char} (h : ∀ c ∈ l, plainChar c = true)
    (p : List Char) (c : Char) (hc : c ∈ p) (hpc : plainChar c = false) :
    matchLit p l = none := by
  cases hm : matchLit p l with
  | none => rfl
  | some r =>
    have hcl := matchLit_mem p l r hm c hc
    have := h c hcl
    rw [hpc] at this
    simp at this

theorem matchScheme_plain {l : List Char} (h : ∀ c ∈ l, plainChar c = true) :
    matchScheme l = none := by
  unfold matchScheme
  rw [matchLit_none_of_bad h ("https://".toList) ':' (by decide) (by decide),
    matchLit_none_of_bad h ("http://".toList) ':' (by decide) (by decide),
    matchLit_none_of_bad h ("www.".toList) '.' (by decide) (by decide)]

theorem matchUrlAt_plain {l : List Char} (h : ∀ c ∈ l, plainChar c = true) :
    matchUrlAt l = none := by
  unfold matchUrlAt
  rw [matchScheme_plain h]

theorem subUrl_plain : ∀ l : List Char, (∀ c ∈ l, plainChar c = true) → subUrl l = l
  | [] => fun _ => rfl
  | c :: rest => fun h => by
    rw [subUrl_cons_none (matchUrlAt_plain h),
      subUrl_plain rest (fun d hd => h d (List.mem_cons_of_mem c hd))]

theorem mentionHead_plain {c : Char} (h : plainChar c = true) (rest : List Char) :
    mentionHead c rest = false := by
  have h1 : c ≠ '@' := by rintro rfl; exact absurd h (by decide)
  have h2 : c ≠ '#' := by rintro rfl; exact absurd h (by decide)
  simp [mentionHead, h1, h2]

theorem subMention_plain : ∀ l : List Char, (∀ c ∈ l, plainChar c = true) → subMention l = l
  | [] => fun _ => rfl
  | c :: rest => fun h => by
    rw [subMention_cons_miss (mentionHead_plain (h c (List.mem_cons_self c rest)) rest),
      subMention_plain rest (fun d hd => h d (List.mem_cons_of_mem c hd))]

theorem filter_digit_plain {l : List Char} (h : ∀ c ∈ l, plainChar c = true) :
    l.filter (fun c => !isPyDigit c) = l := by
  refine List.filter_eq_self.mpr (fun c hc => ?_)
  have := h c hc
  simp only [plainChar, isLowerAlpha, Bool.or_eq_true, Bool.and_eq_true,
    decide_eq_true_eq] at this
  simp only [isPyDigit, Bool.not_eq_true', Bool.and_eq_false_iff,
    decide_eq_false_iff_not]
  omega

theorem filter_ascii_plain {l : List Char} (h : ∀ c ∈ l, plainChar c = true) :
    l.filter (fun c => c.toNat ≤ 127) = l := by
  refine List.filter_eq_self.mpr (fun c hc => ?_)
  have := h c hc
  simp only [plainChar, isLowerAlpha, Bool.or_eq_true, Bool.and_eq_true,
    decide_eq_true_eq] at this
  simp only [decide_eq_true_eq]
  omega

theorem filter_punct_plain {l : List Char} (h : ∀ c ∈ l, plainChar c = true) :
    l.filter (fun c => !isPunct c) = l := by
  refine List.filter_eq_self.mpr (fun c hc => ?_)
  have := h c hc
  simp only [plainChar, isLowerAlpha, Bool.or_eq_true, Bool.and_eq_true,
    decide_eq_true_eq] at this
  simp only [isPunct, Bool.not_eq_true', Bool.or_eq_false_iff,
    Bool.and_eq_false_iff, decide_eq_false_iff_not]
  omega

theorem mem_takeWhile_mem {p : Char → Bool} :
    ∀ {l : List Char} {a : Char}, a ∈ l.takeWhile p → a ∈ l := by
  intro l
  induction l with
  | nil => intro a ha; simp [List.takeWhile] at ha
  | cons c rest ih =>
    intro a ha
    rw [List.takeWhile] at ha
    cases hp : p c with
    | true =>
      rw [hp] at ha
      rcases List.mem_cons.1 ha with h1 | h1
      · exact h1 ▸ List.mem_cons_self c rest
      · exact List.mem_cons_of_mem c (ih h1)
    | false => rw [hp] at ha; simp at ha

theorem mem_dropWhile_mem {p : Char → Bool} :
    ∀ {l : List Char} {a : Char}, a ∈ l.dropWhile p → a ∈ l := by
  intro l
  induction l with
  | nil => intro a ha; simp [List.dropWhile] at ha
  | cons c rest ih =>
    intro a ha
    rw [List.dropWhile] at ha
    cases hp : p c with
    | true => rw [hp] at ha; exact List.mem_cons_of_mem c (ih ha)
    | false => rw [hp] at ha; exact ha

theorem mem_takeWhile_sat {p : Char → Bool} :
    ∀ {l : List Char} {a : Char}, a ∈ l.takeWhile p → p a = true := by
  intro l
  induction l with
  | nil => intro a ha; simp [List.takeWhile] at ha
  | cons c rest ih =>
    intro a ha
    rw [List.takeWhile] at ha
    cases hp : p c with
    | true =>
      rw [hp] at ha
      rcases List.mem_cons.1 ha with h1 | h1
      · exact h1 ▸ hp
      · exact ih h1
    | false => rw [hp] at ha; simp at ha

/-- Every token the whitespace tokenizer produces is a nonempty list of
non-whitespace characters of the input. -/
theorem wsTokenize_sound :
    ∀ l : List Char, ∀ w ∈ wsTokenize l,
      w ≠ [] ∧ ∀ c ∈ w, c ∈ l ∧ isPySpace c = false := by
  suffices h : ∀ (n : Nat) (l : List Char), l.length ≤ n → ∀ w ∈ wsTokenize l,
      w ≠ [] ∧ ∀ c ∈ w, c ∈ l ∧ isPySpace c = false by
    exact fun l => h l.length l (Nat.le_refl _)
  intro n
  induction n with
  | zero =>
    intro l hl w hw
    have : l = [] := List.eq_nil_of_length_eq_zero (Nat.le_zero.1 hl)
    subst this
    exact absurd hw (by simp [wsTokenize, wsTokenizeGo])
  | succ n ih =>
    intro l hl w hw
    cases l with
    | nil => exact absurd hw (by simp [wsTokenize, wsTokenizeGo])
    | cons c rest =>
      simp only [List.length_cons] at hl
      cases hc : isPySpace c with
      | true =>
        rw [wsTokenize_cons_space hc] at hw
        have := ih rest (by omega) w hw
        exact ⟨this.1, fun d hd => ⟨List.mem_cons_of_mem c (this.2 d hd).1, (this.2 d hd).2⟩⟩
      | false =>
        rw [wsTokenize_cons_sub hc] at hw
        rcases List.mem_cons.1 hw with h1 | h1
        · subst h1
          refine ⟨by simp, fun d hd => ?_⟩
          rcases List.mem_cons.1 hd with h2 | h2
          · subst h2
            exact ⟨List.mem_cons_self _ rest, hc⟩
          · refine ⟨List.mem_cons_of_mem c (mem_takeWhile_mem h2), ?_⟩
            have := mem_takeWhile_sat h2
            simpa using this
        · have hlen := IR.length_dropWhile_le (fun d => !isPySpace d) rest
          have := ih (rest.dropWhile (fun d => !isPySpace d)) (by omega) w h1
          exact ⟨this.1, fun d hd =>
            ⟨List.mem_cons_of_mem c (mem_dropWhile_mem (this.2 d hd).1), (this.2 d hd).2⟩⟩

theorem takeWhile_all_append {p : Char → Bool} {a : Char} (r : List Char) :
    ∀ t : List Char, (∀ c ∈ t, p c = true) → p a = false →
      (t ++ a :: r).takeWhile p = t
  | [], _, ha => by
    rw [List.nil_append, List.takeWhile_cons_of_neg (by simp [ha])]
  | c :: t, h, ha => by
    rw [List.cons_append, List.takeWhile_cons_of_pos (h c (List.mem_cons_self c t)),
      takeWhile_all_append r t (fun d hd => h d (List.mem_cons_of_mem c hd)) ha]

theorem dropWhile_all_append {p : Char → Bool} {a : Char} (r : List Char) :
    ∀ t : List Char, (∀ c ∈ t, p c = true) → p a = false →
      (t ++ a :: r).dropWhile p = a :: r
  | [], _, ha => by
    rw [List.nil_append, List.dropWhile_cons_of_neg (by simp [ha])]
  | c :: t, h, ha => by
    rw [List.cons_append, List.dropWhile_cons_of_pos (h c (List.mem_cons_self c t))]
    exact dropWhile_all_append r t (fun d hd => h d (List.mem_cons_of_mem c hd)) ha

theorem takeWhile_all {p : Char → Bool} :
    ∀ t : List Char, (∀ c ∈ t, p c = true) → t.takeWhile p = t
  | [], _ => rfl
  | c :: t, h => by
    rw [List.takeWhile_cons_of_pos (h c (List.mem_cons_self c t)),
      takeWhile_all t (fun d hd => h d (List.mem_cons_of_mem c hd))]

theorem dropWhile_all {p : Char → Bool} :
    ∀ t : List Char, (∀ c ∈ t, p c = true) → t.dropWhile p = []
  | [], _ => rfl
  | c :: t, h => by
    rw [List.dropWhile_cons_of_pos (h c (List.mem_cons_self c t))]
    exact dropWhile_all t (fun d hd => h d (List.mem_cons_of_mem c hd))

theorem wsTokenize_nospace {w : List Char} (hne : w ≠ [])
    (hsp : ∀ c ∈ w, isPySpace c = false) : wsTokenize w = [w] := by
  cases w with
  | nil => exact absurd rfl hne
  | cons c t =>
    have hts : ∀ d ∈ t, (fun d => !isPySpace d) d = true := by
      intro d hd
      simp [hsp d (List.mem_cons_of_mem c hd)]
    rw [wsTokenize_cons_sub (hsp c (List.mem_cons_self c t)),
      takeWhile_all t hts, dropWhile_all t hts]
    rfl

theorem wsTokenize_append_space {w : List Char} (r : List Char) (hne : w ≠ [])
    (hsp : ∀ c ∈ w, isPySpace c = false) :
    wsTokenize (w ++ ' ' :: r) = w :: wsTokenize r := by
  cases w with
  | nil => exact absurd rfl hne
  | cons c t =>
    have hc := hsp c (List.mem_cons_self c t)
    have hts : ∀ d ∈ t, (fun d => !isPySpace d) d = true := by
      intro d hd
      simp [hsp d (List.mem_cons_of_mem c hd)]
    have hsp' : (fun d => !isPySpace d) ' ' = false := by decide
    rw [List.cons_append, wsTokenize_cons_sub hc,
      takeWhile_all_append r t hts hsp', dropWhile_all_append r t hts hsp',
      wsTokenize_cons_space (by decide)]

/-- Re-tokenizing a space-joined list of nonempty space-free words gives the
words back. -/
theorem wsTokenize_intercalate :
    ∀ ws : List (List Char), (∀ w ∈ ws, w ≠ [] ∧ ∀ c ∈ w, isPySpace c = false) →
      wsTokenize (List.intercalate [' '] ws) = ws
  | [], _ => rfl
  | [w], h => by
    have hw := h w (List.mem_cons_self w [])
    have hi : List.intercalate [' '] [w] = w := by
      simp [List.intercalate]
    rw [hi]
    exact wsTokenize_nospace hw.1 hw.2
  | w :: w' :: ws, h => by
    have hw := h w (List.mem_cons_self w (w' :: ws))
    have hi : List.intercalate [' '] (w :: w' :: ws) =
        w ++ ' ' :: List.intercalate [' '] (w' :: ws) := by
      simp [List.intercalate]
    rw [hi, wsTokenize_append_space _ hw.1 hw.2,
      wsTokenize_intercalate (w' :: ws) (fun v hv => h v (List.mem_cons_of_mem w hv))]

theorem pyIsAlpha_iff {w : List Char} :
    pyIsAlpha w = true ↔ w ≠ [] ∧ ∀ c ∈ w, isAsciiAlpha c = true := by
  cases w with
  | nil => simp [pyIsAlpha]
  | cons c t => simp [pyIsAlpha, List.all_eq_true]

theorem isPySpace_of_alpha {c : Char} (h : isAsciiAlpha c = true) :
    isPySpace c = false := by
  simp only [isAsciiAlpha, Bool.or_eq_true, Bool.and_eq_true, decide_eq_true_eq] at h
  simp only [isPySpace, Bool.or_eq_false_iff, Bool.and_eq_false_iff,
    decide_eq_false_iff_not]
  omega

/-- The stemmer hypothesis under which stems survive a join-and-retokenize
round trip: on any token Python's `isalpha` accepts, the stem is nonempty and
free of whitespace.  The real Porter stemmer satisfies this: it only strips
suffixes from a nonempty alphabetic word. -/
def StemSane (nl : Nltk) : Prop :=
  ∀ w, pyIsAlpha w = true → nl.stem w ≠ [] ∧ ∀ c ∈ nl.stem w, isPySpace c = false

theorem stemSane_nlId : StemSane nlId := by
  intro w hw
  rw [pyIsAlpha_iff] at hw
  exact ⟨hw.1, fun c hc => isPySpace_of_alpha (hw.2 c hc)⟩

theorem isAsciiAlpha_of_plain {c : Char} (h1 : plainChar c = true)
    (h2 : isPySpace c = false) : isAsciiAlpha c = true := by
  simp only [plainChar, isLowerAlpha, Bool.or_eq_true, Bool.and_eq_true,
    decide_eq_true_eq] at h1
  simp only [isPySpace, Bool.or_eq_false_iff, Bool.and_eq_false_iff,
    decide_eq_false_iff_not] at h2
  simp only [isAsciiAlpha, Bool.or_eq_true, Bool.and_eq_true, decide_eq_true_eq]
  omega

/-- C1 (counterexample): the two normalization pipelines are not identical.
On the query `ab` — a two-letter alphabetic non-stopword, whose Porter stem is
itself — `preprocess_query` keeps the token, while `clean_text` drops every
token of length ≤ 2, so tokenizing the cleaned text yields nothing. -/
theorem C1_pipelines_differ :
    preprocess_query nlId (toL "ab") ≠ tokenize_text (clean_text nlId (toL "ab")) := by
  decide

/-- C1 (amended): the query pipeline lacks the cleaner's URL stripping, digit
stripping, non-ASCII stripping and length-&gt;2 filter, so the two pipelines
agree only on restricted inputs: on any text of lowercase ASCII words
separated by spaces, all words longer than two characters,
`preprocess_query` produces exactly the tokens of `clean_text` (for any
stemmer that maps alphabetic tokens to nonempty whitespace-free stems, as the
shared Porter stemmer does). -/
theorem C1_normalization_agreement (nl : Nltk) (s : List Char)
    (hchars : ∀ c ∈ s, plainChar c = true)
    (hwords : ∀ w ∈ wsTokenize s, 2 < w.length)
    (hstem : StemSane nl) :
    preprocess_query nl s = tokenize_text (clean_text nl s) := by
  by_cases hs : s = []
  · subst hs; rfl
  · have hlower := map_toLower_plain hchars
    have hurl := subUrl_plain s hchars
    have hmention := subMention_plain s hchars
    have hdig := filter_digit_plain hchars
    have hascii := filter_ascii_plain hchars
    have hpunct := filter_punct_plain hchars
    have htok : ∀ w ∈ wsTokenize s, pyIsAlpha w = true := by
      intro w hw
      have hsnd := wsTokenize_sound s w hw
      exact pyIsAlpha_iff.mpr ⟨hsnd.1, fun c hc =>
        isAsciiAlpha_of_plain (hchars c (hsnd.2 c hc).1) (hsnd.2 c hc).2⟩
    have hfeq : List.filter (fun word => pyIsAlpha word && !nl.isStop word) (wsTokenize s)
        = List.filter (fun word => !nl.isStop word && pyIsAlpha word && word.length > 2)
            (wsTokenize s) := by
      refine List.filter_congr (fun w hw => ?_)
      have h2 : decide (w.length > 2) = true := by
        simp only [decide_eq_true_eq]
        exact hwords w hw
      rw [htok w hw, h2]
      simp
    have hclean : ∀ v ∈ (List.filter
          (fun word => !nl.isStop word && pyIsAlpha word && word.length > 2)
          (wsTokenize s)).map nl.stem,
        v ≠ [] ∧ ∀ c ∈ v, isPySpace c = false := by
      intro v hv
      rcases List.mem_map.1 hv with ⟨w, hw, rfl⟩
      have := (List.mem_filter.1 hw).2
      simp only [Bool.and_eq_true] at this
      exact hstem w this.1.2
    unfold preprocess_query clean_text tokenize_text
    rw [if_neg hs]
    simp only [hlower, hurl, hmention, hdig, hascii, hpunct]
    rw [hfeq]
    exact (wsTokenize_intercalate _ hclean).symm

/-! ### Properties of `Counter` -/

theorem dlookup_bump (acc : Dict (List Char) Nat) (t t' : List Char) :
    dlookup (bump acc t') t =
      if t = t' then some ((dlookup acc t).getD 0 + 1) else dlookup acc t := by
  unfold bump
  by_cases h : t = t'
  · subst h
    rw [dlookup_dupsert_self, if_pos rfl]
  · rw [dlookup_dupsert_ne _ _ _ _ h, if_neg h]

theorem dlookup_foldl_bump (l : List (List Char)) :
    ∀ (acc : Dict (List Char) Nat) (t : List Char),
      dlookup (l.foldl bump acc) t =
        if t ∈ l then some ((dlookup acc t).getD 0 + l.count t) else dlookup acc t := by
  induction l with
  | nil => intro acc t; simp
  | cons a l ih =>
    intro acc t
    rw [List.foldl_cons, ih (bump acc a) t]
    by_cases ha : t = a
    · subst ha
      rw [dlookup_bump, if_pos rfl]
      by_cases hl : t ∈ l
      · rw [if_pos hl, if_pos (List.mem_cons_self t l)]
        simp [List.count_cons_self]
        omega
      · rw [if_neg hl, if_pos (List.mem_cons_self t l)]
        simp [List.count_cons_self, List.count_eq_zero.mpr hl]
    · rw [dlookup_bump, if_neg ha]
      by_cases hl : t ∈ l
      · rw [if_pos hl, if_pos (List.mem_cons_of_mem a hl),
          List.count_cons_of_ne ha]
      · rw [if_neg hl, if_neg (by simp [ha, hl])]

theorem counter_lookup (tokens : List (List Char)) (t : List Char) :
    dlookup (counter tokens) t =
      if t ∈ tokens then some (tokens.count t) else none := by
  unfold counter
  rw [dlookup_foldl_bump]
  simp [dlookup]

theorem counter_lookup_none_iff {tokens : List (List Char)} {t : List Char} :
    dlookup (counter tokens) t = none ↔ t ∉ tokens := by
  rw [counter_lookup]
  by_cases h : t ∈ tokens <;> simp [h]

/-! ### The effect of processing one post on the postings table -/

theorem foldIndex_nil (idx : Dict (List Char) PostingEntry) (pid : List Char) :
    foldIndex idx [] pid = idx := rfl

theorem foldIndex_cons (idx : Dict (List Char) PostingEntry) (k : List Char) (v : Nat)
    (rest : Dict (List Char) Nat) (pid : List Char) :
    foldIndex idx ((k, v) :: rest) pid =
      foldIndex (dupsert idx k (updateEntry pid v ((dlookup idx k).getD ⟨0, 0, []⟩)))
        rest pid := rfl

theorem foldIndex_lookup_not_mem (items : Dict (List Char) Nat) :
    ∀ (idx : Dict (List Char) PostingEntry) (pid t : List Char),
      t ∉ dkeys items → dlookup (foldIndex idx items pid) t = dlookup idx t := by
  induction items with
  | nil => intro idx pid t _; rfl
  | cons kv rest ih =>
    intro idx pid t ht
    obtain ⟨k, v⟩ := kv
    simp only [dkeys, List.map_cons, List.mem_cons, not_or] at ht
    rw [foldIndex_cons, ih _ pid t (by simp [dkeys, ht.2]),
      dlookup_dupsert_ne _ _ _ _ ht.1]

theorem foldIndex_lookup_mem (items : Dict (List Char) Nat) :
    ∀ (idx : Dict (List Char) PostingEntry) (pid t : List Char) (v : Nat),
      (dkeys items).Nodup → dlookup items t = some v →
      dlookup (foldIndex idx items pid) t =
        some (updateEntry pid v ((dlookup idx t).getD ⟨0, 0, []⟩)) := by
  induction items with
  | nil => intro idx pid t v _ hv; simp [dlookup] at hv
  | cons kv rest ih =>
    intro idx pid t v hnd hv
    obtain ⟨k, v'⟩ := kv
    simp only [dkeys, List.map_cons, List.nodup_cons] at hnd
    rw [foldIndex_cons]
    by_cases hk : t = k
    · subst hk
      rw [dlookup, if_pos rfl] at hv
      cases hv
      rw [foldIndex_lookup_not_mem rest _ pid t hnd.1, dlookup_dupsert_self]
    · rw [dlookup, if_neg hk] at hv
      rw [ih _ pid t v hnd.2 hv, dlookup_dupsert_ne _ _ _ _ hk]

theorem counter_keys_nodup (tokens : List (List Char)) :
    (dkeys (counter tokens)).Nodup := by
  suffices h : ∀ (l : List (List Char)) (acc : Dict (List Char) Nat),
      (dkeys acc).Nodup → (dkeys (l.foldl bump acc)).Nodup by
    exact h tokens [] (by simp [dkeys])
  intro l
  induction l with
  | nil => intro acc h; exact h
  | cons a l ih =>
    intro acc h
    rw [List.foldl_cons]
    refine ih (bump acc a) ?_
    unfold bump
    cases hl : dlookup acc a with
    | some v => rw [dkeys_dupsert_of_lookup_some acc a _ (by simp [hl])]; exact h
    | none =>
      rw [dkeys_dupsert_of_lookup_none acc a _ hl]
      have ha : a ∉ dkeys acc := (dlookup_eq_none_iff_not_mem_dkeys acc a).1 hl
      rw [List.nodup_append]
      refine ⟨h, List.nodup_singleton a, ?_⟩
      intro x hx hx'
      rw [List.mem_singleton] at hx'
      subst hx'
      exact ha hx

theorem processPost_skip {st : BuildState} {p : Post} (he : tokensOf p = []) :
    processPost st p = st := by
  have he' : tokenize_text p.clean_text = [] := he
  simp [processPost, he']

/-- The metadata value `processPost` writes for a post. -/
def metaOf (p : Post) : PostMeta :=
  ⟨(maxPair (counter (tokensOf p))).1, (maxPair (counter (tokensOf p))).2,
    ((counter (tokensOf p)).map Prod.snd).sum, p.likes, p.comments, p.date⟩

theorem processPost_eq {st : BuildState} {p : Post} (he : tokensOf p ≠ []) :
    processPost st p =
      ⟨foldIndex st.index (counter (tokensOf p)) p.post_id,
        dupsert st.meta p.post_id (metaOf p),
        dupsert st.files p.post_id (counter (tokensOf p))⟩ := by
  have he' : ¬tokenize_text p.clean_text = [] := he
  simp only [processPost]
  rw [if_neg he']
  rfl

/-- The observable effect of `processPost` on the postings table: every term
of the post goes through one `updateEntry` step with the post's frequency of
that term; all other terms are untouched. -/
theorem processPost_index (st : BuildState) (p : Post) (t : List Char) :
    dlookup (processPost st p).index t =
      if t ∈ tokensOf p then
        some (updateEntry p.post_id (tfIn p t) ((dlookup st.index t).getD ⟨0, 0, []⟩))
      else dlookup st.index t := by
  by_cases he : tokensOf p = []
  · rw [processPost_skip he, he]
    simp
  · rw [processPost_eq he]
    by_cases ht : t ∈ tokensOf p
    · rw [if_pos ht]
      have hv : dlookup (counter (tokensOf p)) t = some ((tokensOf p).count t) := by
        rw [counter_lookup, if_pos ht]
      exact foldIndex_lookup_mem _ _ _ _ _ (counter_keys_nodup _) hv
    · rw [if_neg ht]
      refine foldIndex_lookup_not_mem _ _ _ _ ?_
      rw [← dlookup_eq_none_iff_not_mem_dkeys]
      exact counter_lookup_none_iff.mpr ht

theorem processPost_meta {st : BuildState} {p : Post} (he : tokensOf p ≠ []) :
    (processPost st p).meta = dupsert st.meta p.post_id (metaOf p) := by
  rw [processPost_eq he]

theorem processPost_files {st : BuildState} {p : Post} (he : tokensOf p ≠ []) :
    (processPost st p).files = dupsert st.files p.post_id (counter (tokensOf p)) := by
  rw [processPost_eq he]

/-! ### Build invariants -/

/-- The invariant of every stored postings entry: `df` counts the postings,
the postings are duplicate-free and nonempty. -/
def EntryOk (e : PostingEntry) : Prop :=
  e.df = e.post_ids.length ∧ e.post_ids.Nodup ∧ e.post_ids ≠ []

theorem updateEntry_ok {pid : List Char} {tf : Nat} {e : PostingEntry}
    (h : EntryOk e) : EntryOk (updateEntry pid tf e) := by
  obtain ⟨h1, h2, h3⟩ := h
  unfold updateEntry EntryOk
  by_cases hm : pid ∈ e.post_ids
  · simp only [hm, if_true]
    exact ⟨h1, h2, h3⟩
  · simp only [hm, if_false]
    refine ⟨by simp [h1], ?_, by simp⟩
    rw [List.nodup_append]
    refine ⟨h2, List.nodup_singleton pid, ?_⟩
    intro x hx hx'
    rw [List.mem_singleton] at hx'
    subst hx'
    exact hm hx

theorem updateEntry_ok_base (pid : List Char) (tf : Nat) :
    EntryOk (updateEntry pid tf ⟨0, 0, []⟩) := by
  unfold updateEntry EntryOk
  simp

/-- The invariant of a whole postings table. -/
def IndexOk (idx : Dict (List Char) PostingEntry) : Prop :=
  ∀ t e, dlookup idx t = some e → EntryOk e

theorem foldIndex_ok (items : Dict (List Char) Nat) :
    ∀ (idx : Dict (List Char) PostingEntry) (pid : List Char),
      IndexOk idx → IndexOk (foldIndex idx items pid) := by
  induction items with
  | nil => intro idx pid h; exact h
  | cons kv rest ih =>
    intro idx pid h
    obtain ⟨k, v⟩ := kv
    rw [foldIndex_cons]
    refine ih _ pid ?_
    intro t e ht
    by_cases hk : t = k
    · subst hk
      rw [dlookup_dupsert_self] at ht
      cases ht
      cases ho : dlookup idx t with
      | some e0 => exact updateEntry_ok (h t e0 ho)
      | none => exact updateEntry_ok_base _ _
    · rw [dlookup_dupsert_ne _ _ _ _ hk] at ht
      exact h t e ht

theorem processPost_index_ok {st : BuildState} {p : Post}
    (h : IndexOk st.index) : IndexOk (processPost st p).index := by
  intro t e ht
  rw [processPost_index] at ht
  by_cases htk : t ∈ tokensOf p
  · rw [if_pos htk] at ht
    cases ht
    cases ho : dlookup st.index t with
    | some e0 => exact updateEntry_ok (h t e0 ho)
    | none => exact updateEntry_ok_base _ _
  · rw [if_neg htk] at ht
    exact h t e ht

theorem build_index_ok (posts : List Post) : IndexOk (build posts).index := by
  suffices h : ∀ (ps : List Post) (st : BuildState),
      IndexOk st.index → IndexOk ((ps.foldl processPost st).index) by
    exact h posts ⟨[], [], []⟩ (fun t e he => by simp [dlookup] at he)
  intro ps
  induction ps with
  | nil => intro st h; exact h
  | cons p ps ih =>
    intro st h
    rw [List.foldl_cons]
    exact ih _ (processPost_index_ok h)

/-! ### Monotonicity of the postings accumulator -/

theorem mem_updateEntry_post_ids_self (pid : List Char) (tf : Nat) (e : PostingEntry) :
    pid ∈ (updateEntry pid tf e).post_ids := by
  unfold updateEntry
  by_cases hm : pid ∈ e.post_ids <;> simp [hm]

theorem mem_updateEntry_post_ids_of_mem {x : List Char} (pid : List Char) (tf : Nat)
    (e : PostingEntry) (h : x ∈ e.post_ids) : x ∈ (updateEntry pid tf e).post_ids := by
  unfold updateEntry
  by_cases hm : pid ∈ e.post_ids <;> simp [hm, h]

theorem mem_updateEntry_post_ids {x pid : List Char} {tf : Nat} {e : PostingEntry}
    (h : x ∈ (updateEntry pid tf e).post_ids) : x ∈ e.post_ids ∨ x = pid := by
  unfold updateEntry at h
  by_cases hm : pid ∈ e.post_ids
  · simp only [hm, if_true] at h
    exact Or.inl h
  · simp only [hm, if_false] at h
    rcases List.mem_append.1 h with h1 | h1
    · exact Or.inl h1
    · exact Or.inr (List.mem_singleton.1 h1)

theorem processPost_mono {st : BuildState} {p : Post} {t : List Char} {e : PostingEntry}
    (h : dlookup st.index t = some e) :
    ∃ e', dlookup (processPost st p).index t = some e' ∧
      ∀ x ∈ e.post_ids, x ∈ e'.post_ids := by
  rw [processPost_index]
  by_cases ht : t ∈ tokensOf p
  · rw [if_pos ht, h]
    exact ⟨_, rfl, fun x hx => mem_updateEntry_post_ids_of_mem _ _ _ hx⟩
  · rw [if_neg ht]
    exact ⟨e, h, fun x hx => hx⟩

theorem foldl_mono :
    ∀ (posts : List Post) (st : BuildState) (t : List Char) (e : PostingEntry),
      dlookup st.index t = some e →
      ∃ e', dlookup ((posts.foldl processPost st).index) t = some e' ∧
        ∀ x ∈ e.post_ids, x ∈ e'.post_ids := by
  intro posts
  induction posts with
  | nil => exact fun st t e h => ⟨e, h, fun x hx => hx⟩
  | cons p ps ih =>
    intro st t e h
    rw [List.foldl_cons]
    obtain ⟨e1, he1, hs1⟩ := processPost_mono (p := p) h
    obtain ⟨e2, he2, hs2⟩ := ih _ t e1 he1
    exact ⟨e2, he2, fun x hx => hs2 x (hs1 x hx)⟩

/-- A processed post with a nonempty token list is recorded in the postings
of each of its terms. -/
theorem foldl_mem_postings :
    ∀ (posts : List Post) (st : BuildState) (p : Post), p ∈ posts →
      ∀ t, t ∈ tokensOf p →
      ∃ e, dlookup ((posts.foldl processPost st).index) t = some e ∧
        p.post_id ∈ e.post_ids := by
  intro posts
  induction posts with
  | nil => intro st p hp; exact absurd hp (by simp)
  | cons q ps ih =>
    intro st p hp t ht
    rw [List.foldl_cons]
    rcases List.mem_cons.1 hp with h1 | h1
    · subst h1
      have hbase : ∃ e, dlookup (processPost st p).index t = some e ∧
          p.post_id ∈ e.post_ids := by
        rw [processPost_index, if_pos ht]
        exact ⟨_, rfl, mem_updateEntry_post_ids_self _ _ _⟩
      obtain ⟨e, he, hm⟩ := hbase
      obtain ⟨e', he', hs⟩ := foldl_mono ps _ t e he
      exact ⟨e', he', hs _ hm⟩
    · exact ih _ p h1 t ht

theorem build_index_none {posts : List Post} {t : List Char}
    (h : dlookup (build posts).index t = none) : ∀ q ∈ posts, t ∉ tokensOf q := by
  intro q hq ht
  obtain ⟨e, he, _⟩ := foldl_mem_postings posts ⟨[], [], []⟩ q hq t ht
  rw [show (build posts).index = ((posts.foldl processPost ⟨[], [], []⟩).index) from rfl] at h
  rw [h] at he
  cases he

/-- Where a posting id can come from: either it was already in the table, or
some processed post with that id contained the term. -/
theorem mem_postings_src :
    ∀ (posts : List Post) (st : BuildState) (t : List Char) (e : PostingEntry)
      (pid : List Char),
      dlookup ((posts.foldl processPost st).index) t = some e → pid ∈ e.post_ids →
      (∃ e0, dlookup st.index t = some e0 ∧ pid ∈ e0.post_ids) ∨
      ∃ q ∈ posts, q.post_id = pid ∧ t ∈ tokensOf q := by
  intro posts
  induction posts with
  | nil => intro st t e pid he hm; exact Or.inl ⟨e, he, hm⟩
  | cons q ps ih =>
    intro st t e pid he hm
    rw [List.foldl_cons] at he
    rcases ih _ t e pid he hm with h1 | h1
    · obtain ⟨e0, he0, hm0⟩ := h1
      rw [processPost_index] at he0
      by_cases ht : t ∈ tokensOf q
      · rw [if_pos ht] at he0
        cases he0
        rcases mem_updateEntry_post_ids hm0 with h2 | h2
        · cases ho : dlookup st.index t with
          | none => rw [ho] at h2; cases h2
          | some e1 =>
            rw [ho] at h2
            exact Or.inl ⟨e1, rfl, h2⟩
        · exact Or.inr ⟨q, List.mem_cons_self q ps, h2.symm, ht⟩
      · rw [if_neg ht] at he0
        exact Or.inl ⟨e0, he0, hm0⟩
    · obtain ⟨r, hr, h2, h3⟩ := h1
      exact Or.inr ⟨r, List.mem_cons_of_mem q hr, h2, h3⟩

theorem mem_dkeys_dupsert {K V : Type} [DecidableEq K] {d : Dict K V} {k x : K} {v : V}
    (h : x ∈ dkeys (dupsert d k v)) : x ∈ dkeys d ∨ x = k := by
  cases hl : dlookup d k with
  | some w =>
    rw [dkeys_dupsert_of_lookup_some d k v (by simp [hl])] at h
    exact Or.inl h
  | none =>
    rw [dkeys_dupsert_of_lookup_none d k v hl] at h
    rcases List.mem_append.1 h with h1 | h1
    · exact Or.inl h1
    · exact Or.inr (List.mem_singleton.1 h1)

theorem mem_dkeys_dupsert_self {K V : Type} [DecidableEq K] (d : Dict K V) (k : K) (v : V) :
    k ∈ dkeys (dupsert d k v) :=
  (dlookup_isSome_iff_mem_dkeys _ _).1 (by simp [dlookup_dupsert_self])

theorem mem_dkeys_dupsert_of_mem {K V : Type} [DecidableEq K] {d : Dict K V} {x : K}
    (k : K) (v : V) (h : x ∈ dkeys d) : x ∈ dkeys (dupsert d k v) := by
  cases hl : dlookup d k with
  | some w => rw [dkeys_dupsert_of_lookup_some d k v (by simp [hl])]; exact h
  | none => rw [dkeys_dupsert_of_lookup_none d k v hl]; exact List.mem_append_left _ h

/-- Where a metadata key can come from. -/
theorem mem_meta_src :
    ∀ (posts : List Post) (st : BuildState) (pid : List Char),
      pid ∈ dkeys ((posts.foldl processPost st).meta) →
      pid ∈ dkeys st.meta ∨ ∃ q ∈ posts, q.post_id = pid ∧ tokensOf q ≠ [] := by
  intro posts
  induction posts with
  | nil => intro st pid h; exact Or.inl h
  | cons q ps ih =>
    intro st pid h
    rw [List.foldl_cons] at h
    rcases ih _ pid h with h1 | h1
    · by_cases he : tokensOf q = []
      · rw [processPost_skip he] at h1
        exact Or.inl h1
      · rw [processPost_meta he] at h1
        rcases mem_dkeys_dupsert h1 with h2 | h2
        · exact Or.inl h2
        · exact Or.inr ⟨q, List.mem_cons_self q ps, h2.symm, he⟩
    · obtain ⟨r, hr, h2, h3⟩ := h1
      exact Or.inr ⟨r, List.mem_cons_of_mem q hr, h2, h3⟩

/-! ### Every posting has a per-post artifact -/

/-- Invariant tying the postings table to the per-post artifacts. -/
def FilesOk (st : BuildState) : Prop :=
  ∀ t e, dlookup st.index t = some e → ∀ pid ∈ e.post_ids, pid ∈ dkeys st.files

theorem processPost_filesOk {st : BuildState} {p : Post} (h : FilesOk st) :
    FilesOk (processPost st p) := by
  by_cases he : tokensOf p = []
  · rw [processPost_skip he]
    exact h
  · intro t e ht pid hpid
    rw [processPost_files he]
    rw [processPost_index] at ht
    by_cases htk : t ∈ tokensOf p
    · rw [if_pos htk] at ht
      cases ht
      rcases mem_updateEntry_post_ids hpid with h1 | h1
      · cases ho : dlookup st.index t with
        | none => rw [ho] at h1; cases h1
        | some e0 =>
          rw [ho] at h1
          exact mem_dkeys_dupsert_of_mem _ _ (h t e0 ho pid h1)
      · subst h1
        exact mem_dkeys_dupsert_self _ _ _
    · rw [if_neg htk] at ht
      exact mem_dkeys_dupsert_of_mem _ _ (h t e ht pid hpid)

theorem build_filesOk (posts : List Post) : FilesOk (build posts) := by
  suffices h : ∀ (ps : List Post) (st : BuildState),
      FilesOk st → FilesOk (ps.foldl processPost st) by
    exact h posts ⟨[], [], []⟩ (fun t e he => by simp [dlookup] at he)
  intro ps
  induction ps with
  | nil => intro st h; exact h
  | cons p ps ih =>
    intro st h
    rw [List.foldl_cons]
    exact ih _ (processPost_filesOk h)

theorem build_files_present {posts : List Post} {t : List Char} {e : PostingEntry}
    {pid : List Char} (he : dlookup (build posts).index t = some e)
    (hpid : pid ∈ e.post_ids) :
    ∃ f, dlookup (build posts).files pid = some f := by
  have hk := build_filesOk posts t e he pid hpid
  have := (dlookup_isSome_iff_mem_dkeys _ _).2 hk
  exact Option.isSome_iff_exists.1 this

/-- C5: after every build over any input corpus, every stored term's `df`
equals the number of its postings, and the postings list holds no duplicate
document ids. -/
theorem C5_df_counts_postings (posts : List Post) (t : List Char) (e : PostingEntry)
    (h : dlookup (build posts).index t = some e) :
    e.df = e.post_ids.length ∧ e.post_ids.Nodup :=
  ⟨(build_index_ok posts t e h).1, (build_index_ok posts t e h).2.1⟩

/-- C5 (witness): the invariant evaluated on a concrete two-document build. -/
theorem C5_df_counts_postings_witness :
    dlookup (build posts1).index (toL "bbb") = some ⟨2, 2, [toL "1", toL "2"]⟩ ∧
    ((2 : Nat) = [toL "1", toL "2"].length ∧ [toL "1", toL "2"].Nodup) :=
  ⟨by decide, C5_df_counts_postings posts1 (toL "bbb") ⟨2, 2, [toL "1", toL "2"]⟩ (by decide)⟩

/-! ### Exact characterization of a build over distinct document ids -/

theorem build_append_singleton (posts : List Post) (p : Post) :
    build (posts ++ [p]) = processPost (build posts) p := by
  unfold build
  rw [List.foldl_append]
  rfl

/-- Over a corpus with pairwise-distinct document ids, a stored entry's
`tf_total` is the sum of the term's frequencies over the posts containing it,
and its postings are exactly those posts' ids, in corpus order. -/
theorem build_index_char (posts : List Post)
    (hnd : (posts.map Post.post_id).Nodup) (t : List Char) (e : PostingEntry)
    (he : dlookup (build posts).index t = some e) :
    e.tf_total =
      ((posts.filter (fun q => decide (t ∈ tokensOf q))).map (fun q => tfIn q t)).sum ∧
    e.post_ids = (posts.filter (fun q => decide (t ∈ tokensOf q))).map Post.post_id := by
  induction posts using List.reverseRecOn generalizing e with
  | nil => simp [build, dlookup] at he
  | append_singleton posts q ih =>
    rw [List.map_append, List.nodup_append] at hnd
    obtain ⟨hnd1, _, hdisj⟩ := hnd
    have hqid : q.post_id ∉ posts.map Post.post_id := by
      intro hmem
      exact hdisj hmem (by simp)
    rw [build_append_singleton, processPost_index] at he
    by_cases ht : t ∈ tokensOf q
    · rw [if_pos ht] at he
      cases he
      cases ho : dlookup (build posts).index t with
      | none =>
        have hnone := build_index_none ho
        have hfil : posts.filter (fun q => decide (t ∈ tokensOf q)) = [] :=
          List.filter_eq_nil_iff.mpr (fun r hr => by simp [hnone r hr])
        constructor
        · simp [updateEntry, hfil, ht]
        · simp [updateEntry, hfil, ht]
      | some e0 =>
        obtain ⟨htf0, hids0⟩ := ih hnd1 e0 ho
        have hnot : q.post_id ∉ e0.post_ids := by
          intro hmem
          rcases mem_postings_src posts ⟨[], [], []⟩ t e0 q.post_id ho hmem with h1 | h1
          · obtain ⟨e1, he1, _⟩ := h1
            simp [dlookup] at he1
          · obtain ⟨r, hr, hrid, _⟩ := h1
            exact hqid (List.mem_map.2 ⟨r, hr, hrid⟩)
        constructor
        · simp only [updateEntry, Option.getD_some]
          rw [if_neg hnot]
          simp [List.filter_append, ht, htf0]
        · simp only [updateEntry, Option.getD_some]
          rw [if_neg hnot]
          simp [List.filter_append, ht, hids0]
    · rw [if_neg ht] at he
      obtain ⟨htf0, hids0⟩ := ih hnd1 e he
      rw [List.filter_append]
      simp [ht, htf0, hids0]

/-- Over a corpus with pairwise-distinct ids, the per-post artifact of a post
with a nonempty token list is its token counter. -/
theorem build_files_char :
    ∀ posts : List Post, (posts.map Post.post_id).Nodup → ∀ q ∈ posts,
      tokensOf q ≠ [] →
      dlookup (build posts).files q.post_id = some (counter (tokensOf q)) := by
  intro posts
  induction posts using List.reverseRecOn with
  | nil => intro _ q hq; simp at hq
  | append_singleton posts r ih =>
    intro hnd q hq hne
    rw [List.map_append, List.nodup_append] at hnd
    obtain ⟨hnd1, _, hdisj⟩ := hnd
    rw [build_append_singleton]
    rcases List.mem_append.1 hq with h1 | h1
    · have hne' : q.post_id ≠ r.post_id := by
        intro heq
        exact hdisj (List.mem_map.2 ⟨q, h1, rfl⟩) (by simp [heq])
      by_cases he : tokensOf r = []
      · rw [processPost_skip he]
        exact ih hnd1 q h1 hne
      · rw [processPost_files he, dlookup_dupsert_ne _ _ _ _ hne']
        exact ih hnd1 q h1 hne
    · rw [List.mem_singleton] at h1
      subst h1
      rw [processPost_files hne, dlookup_dupsert_self]

/-- C6 (counterexample): over a corpus in which the same document occurs
twice, `tf_total` double-counts the duplicated occurrence while the
per-document artifact keeps only the last write, so the sum of the artifact
entries over the postings does not reproduce `tf_total`. -/
theorem C6_round_trip_fails_on_duplicates :
    dlookup (build [pDup, pDup]).index (toL "aaa") = some ⟨1, 2, [toL "1"]⟩ ∧
    artifactSum (build [pDup, pDup]).files (toL "aaa") [toL "1"] = 1 ∧
    (2 : Nat) ≠ 1 := by
  decide

/-- C6 (amended): for every build over a corpus with pairwise-distinct
document ids, every stored term's `tf_total` equals the sum, over the term's
postings, of the per-document frequency-artifact entries for that term. -/
theorem C6_round_trip (posts : List Post) (hnd : (posts.map Post.post_id).Nodup)
    (t : List Char) (e : PostingEntry)
    (he : dlookup (build posts).index t = some e) :
    e.tf_total = artifactSum (build posts).files t e.post_ids := by
  obtain ⟨htf, hids⟩ := build_index_char posts hnd t e he
  rw [htf, hids]
  unfold artifactSum
  rw [List.map_map]
  congr 1
  refine List.map_congr_left (fun q hq => ?_)
  have hq1 := List.mem_filter.1 hq
  have hqt : t ∈ tokensOf q := by simpa using hq1.2
  have hqne : tokensOf q ≠ [] := by
    intro hnil
    rw [hnil] at hqt
    cases hqt
  have hf := build_files_char posts hnd q hq1.1 hqne
  simp only [Function.comp_apply, fileTf, hf]
  rw [counter_lookup, if_pos hqt]
  rfl

/-- C6 (witness): the amended round trip evaluated on a concrete
distinct-id build. -/
theorem C6_round_trip_witness :
    (posts1.map Post.post_id).Nodup ∧
    dlookup (build posts1).index (toL "bbb") = some ⟨2, 2, [toL "1", toL "2"]⟩ ∧
    (2 : Nat) = artifactSum (build posts1).files (toL "bbb") [toL "1", toL "2"] :=
  ⟨by decide, by decide,
    C6_round_trip posts1 (by decide) (toL "bbb") ⟨2, 2, [toL "1", toL "2"]⟩ (by decide)⟩

/-- C7 (counterexample): re-processing the same document is not idempotent:
with the one-term document `1` duplicated, `df` and the postings stay fixed
but `tf_total` doubles from 1 to 2. -/
theorem C7_not_idempotent :
    dlookup (build [pDup]).index (toL "aaa") = some ⟨1, 1, [toL "1"]⟩ ∧
    dlookup (build [pDup, pDup]).index (toL "aaa") = some ⟨1, 2, [toL "1"]⟩ ∧
    (1 : Nat) ≠ 2 := by
  decide

/-- C7 (amended): re-processing a document already in the corpus leaves every
term's `df` and postings unchanged but adds the document's term frequency to
`tf_total` once more (so only the `df`/postings part of the accumulation is
idempotent). -/
theorem C7_reprocess_effect (posts : List Post) (p : Post) (hp : p ∈ posts)
    (t : List Char) :
    dlookup (build (posts ++ [p])).index t =
      (dlookup (build posts).index t).map
        (fun e => ⟨e.df, e.tf_total + tfIn p t, e.post_ids⟩) := by
  rw [build_append_singleton, processPost_index]
  by_cases ht : t ∈ tokensOf p
  · rw [if_pos ht]
    obtain ⟨e, he, hmem⟩ := foldl_mem_postings posts ⟨[], [], []⟩ p hp t ht
    have he' : dlookup (build posts).index t = some e := he
    rw [he']
    simp only [Option.getD_some, Option.map_some']
    unfold updateEntry
    simp [hmem]
  · rw [if_neg ht]
    have hz : tfIn p t = 0 := by
      unfold tfIn
      exact List.count_eq_zero.mpr ht
    cases ho : dlookup (build posts).index t with
    | none => rfl
    | some e => simp [hz]

/-- C7 (witness): the amended re-processing effect evaluated on the concrete
duplicated corpus. -/
theorem C7_reprocess_effect_witness :
    pDup ∈ [pDup] ∧
    dlookup (build ([pDup] ++ [pDup])).index (toL "aaa") =
      (dlookup (build [pDup]).index (toL "aaa")).map
        (fun e => ⟨e.df, e.tf_total + tfIn pDup (toL "aaa"), e.post_ids⟩) :=
  ⟨by decide, C7_reprocess_effect [pDup] pDup (by decide) (toL "aaa")⟩

/-! ### Exclusion of empty documents -/

theorem build_meta_none (posts : List Post) (hnd : (posts.map Post.post_id).Nodup)
    (p : Post) (hp : p ∈ posts) (he : tokensOf p = []) :
    dlookup (build posts).meta p.post_id = none := by
  cases hm : dlookup (build posts).meta p.post_id with
  | none => rfl
  | some d =>
    have hk : p.post_id ∈ dkeys (build posts).meta :=
      (dlookup_isSome_iff_mem_dkeys _ _).1 (by simp [hm])
    rcases mem_meta_src posts ⟨[], [], []⟩ p.post_id hk with h1 | h1
    · simp [dkeys] at h1
    · obtain ⟨q, hq, hqid, hqne⟩ := h1
      have : q = p := List.inj_on_of_nodup_map hnd hq hp hqid
      subst this
      exact absurd he hqne

theorem build_postings_no_empty_doc (posts : List Post)
    (hnd : (posts.map Post.post_id).Nodup) (p : Post) (hp : p ∈ posts)
    (he : tokensOf p = []) (t : List Char) (e : PostingEntry)
    (hte : dlookup (build posts).index t = some e) :
    p.post_id ∉ e.post_ids := by
  intro hmem
  rcases mem_postings_src posts ⟨[], [], []⟩ t e p.post_id hte hmem with h1 | h1
  · obtain ⟨e1, he1, _⟩ := h1
    simp [dlookup] at he1
  · obtain ⟨q, hq, hqid, hqt⟩ := h1
    have : q = p := List.inj_on_of_nodup_map hnd hq hp hqid
    subst this
    rw [he] at hqt
    cases hqt

/-- C8: over a corpus with pairwise-distinct document ids, a document whose
normalized token sequence is empty is excluded entirely: the built metadata
has no entry for its id, no term's postings reference its id, and
`show_post_info` on its id reports not-found. -/
theorem C8_empty_doc_excluded (posts : List Post)
    (hnd : (posts.map Post.post_id).Nodup) (p : Post) (hp : p ∈ posts)
    (he : tokensOf p = []) :
    dlookup (build posts).meta p.post_id = none ∧
    (∀ t e, dlookup (build posts).index t = some e → p.post_id ∉ e.post_ids) ∧
    show_post_info (engineOf (build posts)) p.post_id = .notFound p.post_id := by
  have hm := build_meta_none posts hnd p hp he
  refine ⟨hm, fun t e hte => build_postings_no_empty_doc posts hnd p hp he t e hte, ?_⟩
  unfold show_post_info engineOf
  simp only []
  rw [hm]

/-- C8 (witness): the exclusion theorem evaluated on the concrete corpus whose
third document has empty cleaned text. -/
theorem C8_empty_doc_excluded_witness :
    (posts1.map Post.post_id).Nodup ∧
    (⟨toL "3", toL "", none, none, none⟩ : Post) ∈ posts1 ∧
    dlookup (build posts1).meta (toL "3") = none ∧
    show_post_info (engineOf (build posts1)) (toL "3") = .notFound (toL "3") :=
  ⟨by decide, by decide,
    (C8_empty_doc_excluded posts1 (by decide) ⟨toL "3", toL "", none, none, none⟩
      (by decide) (by decide)).1,
    (C8_empty_doc_excluded posts1 (by decide) ⟨toL "3", toL "", none, none, none⟩
      (by decide) (by decide)).2.2⟩

/-! ### The scoring loop -/

theorem scoreStep_lookup_ne {fs : Files} {term : List Char} {idf : ℚ}
    {scores : Dict (List Char) ℚ} {PID x : List Char} (h : x ≠ PID) :
    dlookup (scoreStep fs term idf scores PID) x = dlookup scores x := by
  unfold scoreStep
  cases dlookup fs PID with
  | some freqs => exact dlookup_dupsert_ne _ _ _ _ h
  | none => rfl

theorem foldl_scoreStep_not_mem {fs : Files} {term : List Char} {idf : ℚ} :
    ∀ (l : List (List Char)) (acc : Dict (List Char) ℚ) (x : List Char), x ∉ l →
      dlookup (l.foldl (scoreStep fs term idf) acc) x = dlookup acc x := by
  intro l
  induction l with
  | nil => intro acc x _; rfl
  | cons a l ih =>
    intro acc x hx
    simp only [List.mem_cons, not_or] at hx
    rw [List.foldl_cons, ih _ x hx.2, scoreStep_lookup_ne hx.1]

theorem foldl_scoreStep_mem {fs : Files} {term : List Char} {idf : ℚ} :
    ∀ (l : List (List Char)), l.Nodup →
      ∀ (acc : Dict (List Char) ℚ) (pid : List Char), pid ∈ l →
      ∀ f, dlookup fs pid = some f →
      dlookup (l.foldl (scoreStep fs term idf) acc) pid =
        some ((dlookup acc pid).getD 0 + ((dlookup f term).getD 0 : ℚ) * idf) := by
  intro l
  induction l with
  | nil => intro _ acc pid hpid; exact absurd hpid (by simp)
  | cons a l ih =>
    intro hnd acc pid hpid f hf
    rw [List.nodup_cons] at hnd
    rw [List.foldl_cons]
    by_cases ha : pid = a
    · subst ha
      rw [foldl_scoreStep_not_mem l _ pid hnd.1]
      unfold scoreStep
      rw [hf]
      simp only []
      rw [dlookup_dupsert_self]
    · rcases List.mem_cons.1 hpid with h1 | h1
      · exact absurd h1 ha
      · rw [ih hnd.2 _ pid h1 f hf, scoreStep_lookup_ne ha]

/-- The score the loop records for a posting with an existing artifact:
exactly the artifact's term frequency times the idf. -/
theorem scoreLoop_lookup {mlog : ℚ → ℚ} {en : Engine} {fs : Files}
    {term : List Char} {e : PostingEntry} (hnd : e.post_ids.Nodup)
    {pid : List Char} (hpid : pid ∈ e.post_ids) {f : Dict (List Char) Nat}
    (hf : dlookup fs pid = some f) :
    dlookup (scoreLoop mlog en fs term e) pid =
      some (((dlookup f term).getD 0 : ℚ) * idfOf mlog en e) := by
  unfold scoreLoop
  rw [foldl_scoreStep_mem e.post_ids hnd [] pid hpid f hf]
  norm_num [dlookup]

/-! ### Stability of the ranking sort -/

/-- The sort `sorted(…, key=…, reverse=True)` is stable: within each exact
score, elements keep their original (insertion) order. -/
theorem insertionSort_stable (l : List ((List Char) × ℚ)) (v : ℚ) :
    (List.insertionSort scoreGe l).filter (fun p => decide (p.2 = v)) =
      l.filter (fun p => decide (p.2 = v)) := by
  induction l with
  | nil => rfl
  | cons a l ih =>
    rw [List.insertionSort, List.orderedInsert_eq_take_drop, List.filter_append]
    have htd := List.takeWhile_append_dropWhile
      (p := fun b => decide ¬scoreGe a b) (l := List.insertionSort scoreGe l)
    have hsplit : (List.insertionSort scoreGe l).filter (fun p => decide (p.2 = v)) =
        ((List.insertionSort scoreGe l).takeWhile (fun b => decide ¬scoreGe a b)).filter
            (fun p => decide (p.2 = v)) ++
          ((List.insertionSort scoreGe l).dropWhile (fun b => decide ¬scoreGe a b)).filter
            (fun p => decide (p.2 = v)) := by
      rw [← List.filter_append, htd]
    by_cases hv : a.2 = v
    · have htke : ((List.insertionSort scoreGe l).takeWhile
          (fun b => decide ¬scoreGe a b)).filter (fun p => decide (p.2 = v)) = [] := by
        rw [List.filter_eq_nil_iff]
        intro b hb
        have hP := List.mem_takeWhile_imp hb
        simp only [decide_eq_true_eq] at hP
        unfold scoreGe at hP
        simp only [decide_eq_true_eq]
        intro hbv
        exact hP (le_of_eq (by rw [hbv, hv]))
      rw [List.filter_cons_of_pos (by simp [hv]), htke, List.nil_append]
      rw [List.filter_cons_of_pos (by simp [hv])]
      have : ((List.insertionSort scoreGe l).dropWhile
          (fun b => decide ¬scoreGe a b)).filter (fun p => decide (p.2 = v)) =
          l.filter (fun p => decide (p.2 = v)) := by
        rw [← ih, hsplit, htke, List.nil_append]
      rw [this]
    · rw [List.filter_cons_of_neg (by simp [hv]), List.filter_cons_of_neg (by simp [hv])]
      rw [← ih, hsplit]

/-! ### C2: the TF-IDF scoring formula over built artifacts -/

/-- C2: for every query whose first normalized term is in the postings table
of a built index, `df` is positive, each of the term's postings has a
per-document artifact, and the search's scores dict assigns each posting
exactly `frequency × mlog(1 + N / df)` where `N` counts the metadata entries
and `frequency` is that document's frequency-artifact entry for the term;
the search returns the ids ranked by those scores. -/
theorem C2_tfidf_scoring (nl : Nltk) (mlog : ℚ → ℚ) (posts : List Post)
    (q t : List Char) (rest : List (List Char)) (e : PostingEntry)
    (hq : preprocess_query nl q = t :: rest)
    (he : dlookup (build posts).index t = some e) :
    search nl mlog (engineOf (build posts)) (build posts).files q =
      .ranked t (((pySortDesc
        (scoreLoop mlog (engineOf (build posts)) (build posts).files t e)).take 20).map
          Prod.fst) ∧
    0 < e.df ∧
    (∀ pid ∈ e.post_ids, pid ∈ dkeys (build posts).files) ∧
    (∀ pid ∈ e.post_ids,
      dlookup (scoreLoop mlog (engineOf (build posts)) (build posts).files t e) pid =
        some ((fileTf (build posts).files pid t : ℚ) *
          mlog (1 + (((engineOf (build posts)).post_metadata.length : ℚ)) / (e.df : ℚ)))) := by
  have hok := build_index_ok posts t e he
  have hdf : 0 < e.df := by
    rw [hok.1]
    exact List.length_pos.mpr hok.2.2
  have he' : dlookup (engineOf (build posts)).inverted_index t = some e := he
  refine ⟨?_, hdf, ?_, ?_⟩
  · simp only [search, hq, he']
  · exact fun pid hpid => build_filesOk posts t e he pid hpid
  · intro pid hpid
    obtain ⟨f, hf⟩ := build_files_present he hpid
    rw [scoreLoop_lookup hok.2.1 hpid hf]
    have hidf : idfOf mlog (engineOf (build posts)) e =
        mlog (1 + (((engineOf (build posts)).post_metadata.length : ℚ)) / (e.df : ℚ)) := by
      unfold idfOf
      rw [if_pos (Nat.pos_iff_ne_zero.1 hdf)]
    rw [hidf]
    have hft : fileTf (build posts).files pid t = (dlookup f t).getD 0 := by
      unfold fileTf
      rw [hf]
    rw [hft]

/-- C2 (witness): the scoring formula evaluated on a concrete build: the term
`bbb` of `posts1`, posting `1`. -/
theorem C2_tfidf_scoring_witness :
    preprocess_query nlId (toL "bbb") = [toL "bbb"] ∧
    dlookup (build posts1).index (toL "bbb") = some ⟨2, 2, [toL "1", toL "2"]⟩ ∧
    0 < (⟨2, 2, [toL "1", toL "2"]⟩ : PostingEntry).df ∧
    dlookup (scoreLoop mlog1 (engineOf (build posts1)) (build posts1).files (toL "bbb")
        ⟨2, 2, [toL "1", toL "2"]⟩) (toL "1") =
      some ((fileTf (build posts1).files (toL "1") (toL "bbb") : ℚ) *
        mlog1 (1 + (((engineOf (build posts1)).post_metadata.length : ℚ)) /
          (((⟨2, 2, [toL "1", toL "2"]⟩ : PostingEntry).df : ℚ)))) :=
  ⟨by decide, by decide,
    (C2_tfidf_scoring nlId mlog1 posts1 (toL "bbb") (toL "bbb") [] _ (by decide)
      (by decide)).2.1,
    (C2_tfidf_scoring nlId mlog1 posts1 (toL "bbb") (toL "bbb") [] _ (by decide)
      (by decide)).2.2.2 (toL "1") (by decide)⟩

/-! ### C3: shape of the ranked result -/

/-- C3 (amended): `search` returns up to 20 document ids (ids only — the
scores are printed, not returned), the ids of the first 20 entries of a
stable descending sort of the scores dict: the result length is
`min 20 (#scored documents)`, the sort is score-descending and a permutation
of the scores, and every entry ranked outside the first 20 scores no more
than every returned entry. -/
theorem C3_top20_ids (nl : Nltk) (mlog : ℚ → ℚ) (en : Engine) (fs : Files)
    (q t : List Char) (rest : List (List Char)) (e : PostingEntry)
    (hq : preprocess_query nl q = t :: rest)
    (he : dlookup en.inverted_index t = some e) :
    search nl mlog en fs q =
      .ranked t (((pySortDesc (scoreLoop mlog en fs t e)).take 20).map Prod.fst) ∧
    (resultIds (search nl mlog en fs q)).length =
      min 20 (scoreLoop mlog en fs t e).length ∧
    List.Sorted scoreGe (pySortDesc (scoreLoop mlog en fs t e)) ∧
    (pySortDesc (scoreLoop mlog en fs t e)).Perm (scoreLoop mlog en fs t e) ∧
    (∀ x ∈ (pySortDesc (scoreLoop mlog en fs t e)).take 20,
      ∀ y ∈ (pySortDesc (scoreLoop mlog en fs t e)).drop 20, y.2 ≤ x.2) := by
  have hs : search nl mlog en fs q =
      .ranked t (((pySortDesc (scoreLoop mlog en fs t e)).take 20).map Prod.fst) := by
    simp only [search, hq, he]
  have hsorted : List.Sorted scoreGe (pySortDesc (scoreLoop mlog en fs t e)) :=
    List.sorted_insertionSort scoreGe _
  refine ⟨hs, ?_, hsorted, List.perm_insertionSort scoreGe _, ?_⟩
  · rw [hs]
    simp only [resultIds, List.length_map, List.length_take]
    congr 1
    exact List.length_insertionSort _ _
  · have hpw := hsorted
    rw [List.Sorted, ← List.take_append_drop 20 (pySortDesc (scoreLoop mlog en fs t e)),
      List.pairwise_append] at hpw
    exact fun x hx y hy => hpw.2.2 x hx y hy

/-- C3 (witness): the amended result-shape theorem applied to the concrete
engine `st4`. -/
theorem C3_top20_ids_witness :
    preprocess_query nlId (toL "abc") = [toL "abc"] ∧
    dlookup st4.inverted_index (toL "abc") = some ⟨2, 2, [toL "2", toL "1"]⟩ ∧
    search nlId mlog1 st4 fs4 (toL "abc") =
      .ranked (toL "abc")
        (((pySortDesc (scoreLoop mlog1 st4 fs4 (toL "abc")
          ⟨2, 2, [toL "2", toL "1"]⟩)).take 20).map Prod.fst) ∧
    (resultIds (search nlId mlog1 st4 fs4 (toL "abc"))).length =
      min 20 (scoreLoop mlog1 st4 fs4 (toL "abc") ⟨2, 2, [toL "2", toL "1"]⟩).length :=
  ⟨by decide, by decide,
    (C3_top20_ids nlId mlog1 st4 fs4 (toL "abc") (toL "abc") [] _ (by decide)
      (by decide)).1,
    (C3_top20_ids nlId mlog1 st4 fs4 (toL "abc") (toL "abc") [] _ (by decide)
      (by decide)).2.1⟩

/-- Evaluation of the scoring loop on the concrete single-posting engine with
artifact frequency 1. -/
theorem scoreLoop_st3_fsA :
    scoreLoop mlog1 st3 fsA (toL "abc") ⟨1, 1, [toL "1"]⟩ = [(toL "1", 1)] := by
  have hidf : idfOf mlog1 st3 ⟨1, 1, [toL "1"]⟩ = 1 := by
    norm_num [idfOf, mlog1]
  unfold scoreLoop
  rw [hidf]
  show scoreStep fsA (toL "abc") 1 [] (toL "1") = [(toL "1", 1)]
  unfold scoreStep
  have hf : dlookup fsA (toL "1") = some [(toL "abc", 1)] := by decide
  rw [hf]
  show dupsert [] (toL "1")
    ((dlookup [] (toL "1")).getD 0 +
      (((dlookup [(toL "abc", 1)] (toL "abc")).getD 0 : Nat) : ℚ) * 1) = [(toL "1", 1)]
  norm_num [dupsert, dlookup]

/-- The same with artifact frequency 2: the score doubles. -/
theorem scoreLoop_st3_fsB :
    scoreLoop mlog1 st3 fsB (toL "abc") ⟨1, 1, [toL "1"]⟩ = [(toL "1", 2)] := by
  have hidf : idfOf mlog1 st3 ⟨1, 1, [toL "1"]⟩ = 1 := by
    norm_num [idfOf, mlog1]
  unfold scoreLoop
  rw [hidf]
  show scoreStep fsB (toL "abc") 1 [] (toL "1") = [(toL "1", 2)]
  unfold scoreStep
  have hf : dlookup fsB (toL "1") = some [(toL "abc", 2)] := by decide
  rw [hf]
  show dupsert [] (toL "1")
    ((dlookup [] (toL "1")).getD 0 +
      (((dlookup [(toL "abc", 2)] (toL "abc")).getD 0 : Nat) : ℚ) * 1) = [(toL "1", 2)]
  norm_num [dupsert, dlookup]

/-- C3 (counterexample): the returned value carries no scores.  Two runs over
artifacts that give the same document different scores (1 versus 2) return
exactly the same value, so the result cannot be the claimed list of
(document id, score) pairs — it is the list of bare ids. -/
theorem C3_result_has_no_scores :
    search nlId mlog1 st3 fsA (toL "abc") = search nlId mlog1 st3 fsB (toL "abc") ∧
    dlookup (scoreLoop mlog1 st3 fsA (toL "abc") ⟨1, 1, [toL "1"]⟩) (toL "1") ≠
      dlookup (scoreLoop mlog1 st3 fsB (toL "abc") ⟨1, 1, [toL "1"]⟩) (toL "1") := by
  have hp : preprocess_query nlId (toL "abc") = [toL "abc"] := by decide
  have hl : dlookup st3.inverted_index (toL "abc") = some ⟨1, 1, [toL "1"]⟩ := by decide
  constructor
  · have hA : search nlId mlog1 st3 fsA (toL "abc") = .ranked (toL "abc") [toL "1"] := by
      simp only [search, hp, hl, scoreLoop_st3_fsA]
      rfl
    have hB : search nlId mlog1 st3 fsB (toL "abc") = .ranked (toL "abc") [toL "1"] := by
      simp only [search, hp, hl, scoreLoop_st3_fsB]
      rfl
    rw [hA, hB]
  · rw [scoreLoop_st3_fsA, scoreLoop_st3_fsB]
    simp only [dlookup, if_pos rfl]
    intro h
    have := Option.some.inj h
    norm_num at this

/-! ### C4: tie-breaking -/

/-- C4 (amended): within the score-descending result, exact ties keep the
order in which the scores dict was filled — the order of the term's postings
list — not ascending document id: for every score value, filtering the sorted
ranking to that value gives the scores entries in their original order. -/
theorem C4_ties_keep_insertion_order (nl : Nltk) (mlog : ℚ → ℚ) (en : Engine)
    (fs : Files) (q t : List Char) (rest : List (List Char)) (e : PostingEntry)
    (hq : preprocess_query nl q = t :: rest)
    (he : dlookup en.inverted_index t = some e) :
    search nl mlog en fs q =
      .ranked t (((pySortDesc (scoreLoop mlog en fs t e)).take 20).map Prod.fst) ∧
    ∀ v : ℚ, (pySortDesc (scoreLoop mlog en fs t e)).filter (fun p => decide (p.2 = v)) =
      (scoreLoop mlog en fs t e).filter (fun p => decide (p.2 = v)) := by
  constructor
  · simp only [search, hq, he]
  · exact fun v => insertionSort_stable _ v

/-- Evaluation of the scoring loop on the concrete engine whose postings are
`["2", "1"]`, both with artifact frequency 1: an exact tie, recorded in
postings order. -/
theorem scoreLoop_st4 :
    scoreLoop mlog1 st4 fs4 (toL "abc") ⟨2, 2, [toL "2", toL "1"]⟩ =
      [(toL "2", 1), (toL "1", 1)] := by
  have hidf : idfOf mlog1 st4 ⟨2, 2, [toL "2", toL "1"]⟩ = 1 := by
    norm_num [idfOf, mlog1]
  unfold scoreLoop
  rw [hidf]
  rw [show ((⟨2, 2, [toL "2", toL "1"]⟩ : PostingEntry).post_ids) =
    [toL "2", toL "1"] from rfl]
  rw [List.foldl_cons, List.foldl_cons, List.foldl_nil]
  have h2 : scoreStep fs4 (toL "abc") 1 [] (toL "2") = [(toL "2", 1)] := by
    unfold scoreStep
    have hf : dlookup fs4 (toL "2") = some [(toL "abc", 1)] := by decide
    rw [hf]
    show dupsert [] (toL "2")
      ((dlookup [] (toL "2")).getD 0 +
        (((dlookup [(toL "abc", 1)] (toL "abc")).getD 0 : Nat) : ℚ) * 1) = [(toL "2", 1)]
    norm_num [dupsert, dlookup]
  rw [h2]
  unfold scoreStep
  have hf : dlookup fs4 (toL "1") = some [(toL "abc", 1)] := by decide
  rw [hf]
  show dupsert [(toL "2", 1)] (toL "1")
    ((dlookup [(toL "2", 1)] (toL "1")).getD 0 +
      (((dlookup [(toL "abc", 1)] (toL "abc")).getD 0 : Nat) : ℚ) * 1) =
    [(toL "2", 1), (toL "1", 1)]
  have h1 : dlookup [((toL "2"), (1 : ℚ))] (toL "1") = none := by
    simp only [dlookup]
    rw [if_neg (by decide)]
  rw [h1]
  show dupsert [(toL "2", 1)] (toL "1") (((0 : ℚ)) + ((1 : Nat) : ℚ) * 1) =
    [(toL "2", 1), (toL "1", 1)]
  have hv : ((0 : ℚ)) + ((1 : Nat) : ℚ) * 1 = 1 := by norm_num
  rw [hv]
  simp only [dupsert]
  rw [if_neg (by decide)]

/-- The stable descending sort of the tied scores keeps the postings order. -/
theorem pySortDesc_st4 :
    pySortDesc [((toL "2"), (1 : ℚ)), (toL "1", 1)] = [(toL "2", 1), (toL "1", 1)] := by
  unfold pySortDesc
  simp only [List.insertionSort, List.orderedInsert]
  rw [if_pos (show scoreGe ((toL "2"), (1 : ℚ)) ((toL "1"), (1 : ℚ)) from le_refl 1)]

/-- C4 (counterexample): with postings order `["2", "1"]` and an exact score
tie, search returns `["2", "1"]` — the incidental postings/insertion order —
not the ascending document ids `["1", "2"]` the claim requires. -/
theorem C4_ties_not_by_ascending_id :
    search nlId mlog1 st4 fs4 (toL "abc") = .ranked (toL "abc") [toL "2", toL "1"] ∧
    dlookup (scoreLoop mlog1 st4 fs4 (toL "abc") ⟨2, 2, [toL "2", toL "1"]⟩) (toL "1") =
      dlookup (scoreLoop mlog1 st4 fs4 (toL "abc") ⟨2, 2, [toL "2", toL "1"]⟩)
        (toL "2") ∧
    [toL "2", toL "1"] ≠ [toL "1", toL "2"] := by
  have hp : preprocess_query nlId (toL "abc") = [toL "abc"] := by decide
  have hl : dlookup st4.inverted_index (toL "abc") =
      some ⟨2, 2, [toL "2", toL "1"]⟩ := by decide
  refine ⟨?_, ?_, by decide⟩
  · simp only [search, hp, hl, scoreLoop_st4, pySortDesc_st4]
    rfl
  · rw [scoreLoop_st4]
    simp [dlookup]

/-- C4 (witness): the amended tie-order theorem applied to the concrete tied
engine, at score value 1. -/
theorem C4_ties_keep_insertion_order_witness :
    search nlId mlog1 st4 fs4 (toL "abc") =
      .ranked (toL "abc")
        (((pySortDesc (scoreLoop mlog1 st4 fs4 (toL "abc")
          ⟨2, 2, [toL "2", toL "1"]⟩)).take 20).map Prod.fst) ∧
    (pySortDesc (scoreLoop mlog1 st4 fs4 (toL "abc")
        ⟨2, 2, [toL "2", toL "1"]⟩)).filter (fun p => decide (p.2 = 1)) =
      (scoreLoop mlog1 st4 fs4 (toL "abc")
        ⟨2, 2, [toL "2", toL "1"]⟩).filter (fun p => decide (p.2 = 1)) :=
  ⟨(C4_ties_keep_insertion_order nlId mlog1 st4 fs4 (toL "abc") (toL "abc") [] _
      (by decide) (by decide)).1,
    (C4_ties_keep_insertion_order nlId mlog1 st4 fs4 (toL "abc") (toL "abc") [] _
      (by decide) (by decide)).2 1⟩

/-! ### C9: behavior when artifacts are missing -/

/-- C9 (counterexample): there is no Unloaded state.  An engine whose
artifact files are both absent is literally the same state as one loaded from
empty artifacts, and a search on it reports the ordinary term-not-found
signal rather than any distinct not-ready condition. -/
theorem C9_no_unloaded_state :
    SearchEngine_init none none = SearchEngine_init (some []) (some []) ∧
    search nlId mlog1 (SearchEngine_init none none) [] (toL "abc") =
      .termNotFound (toL "abc") := by
  constructor
  · rfl
  · decide

/-- C9 (amended): `_load_json` substitutes an empty mapping for a missing
artifact file (after printing a file-not-found message), the engine always
constructs, and with both artifacts missing it behaves exactly as an engine
over an empty index: every search yields the no-valid-term or term-not-found
signal, and every metadata query reports not-found. -/
theorem C9_missing_artifacts_as_empty (nl : Nltk) (mlog : ℚ → ℚ) (fs : Files)
    (q pid : List Char) :
    load_json (K := List Char) (V := PostingEntry) none = [] ∧
    SearchEngine_init none none = SearchEngine_init (some []) (some []) ∧
    (search nl mlog (SearchEngine_init none none) fs q = .noValidTerm ∨
      ∃ t ts, preprocess_query nl q = t :: ts ∧
        search nl mlog (SearchEngine_init none none) fs q = .termNotFound t) ∧
    show_post_info (SearchEngine_init none none) pid = .notFound pid := by
  refine ⟨rfl, rfl, ?_, rfl⟩
  cases hp : preprocess_query nl q with
  | nil =>
    left
    simp only [search, hp]
  | cons t ts =>
    right
    refine ⟨t, ts, rfl, ?_⟩
    simp only [search, hp]
    rfl

/-! ### C10: total, distinguishable failure signals -/

/-- C10: `search` is total on every query string (the embedding is a total
function, so no run raises): an empty normalization yields the no-valid-term
signal with an empty result list, an unknown first term yields the distinct
term-not-found signal with an empty result list, and the two signals are
never equal. -/
theorem C10_failure_signals (nl : Nltk) (mlog : ℚ → ℚ) (en : Engine) (fs : Files)
    (q : List Char) :
    (preprocess_query nl q = [] →
      search nl mlog en fs q = .noValidTerm ∧
      resultIds (search nl mlog en fs q) = []) ∧
    (∀ t ts, preprocess_query nl q = t :: ts → dlookup en.inverted_index t = none →
      search nl mlog en fs q = .termNotFound t ∧
      resultIds (search nl mlog en fs q) = []) ∧
    (∀ t, (SearchOutcome.noValidTerm : SearchOutcome) ≠ .termNotFound t) := by
  refine ⟨?_, ?_, fun t h => SearchOutcome.noConfusion h⟩
  · intro hp
    have hs : search nl mlog en fs q = .noValidTerm := by
      simp only [search, hp]
    exact ⟨hs, by rw [hs]; rfl⟩
  · intro t ts hp hn
    have hs : search nl mlog en fs q = .termNotFound t := by
      simp only [search, hp, hn]
    exact ⟨hs, by rw [hs]; rfl⟩

/-- C10 (witness): the two failure signals evaluated on concrete queries over
an empty engine: an all-punctuation query and an unknown term. -/
theorem C10_failure_signals_witness :
    search nlId mlog1 ⟨[], []⟩ [] (toL "!!!") = .noValidTerm ∧
    search nlId mlog1 ⟨[], []⟩ [] (toL "abc") = .termNotFound (toL "abc") :=
  ⟨((C10_failure_signals nlId mlog1 ⟨[], []⟩ [] (toL "!!!")).1 (by decide)).1,
    ((C10_failure_signals nlId mlog1 ⟨[], []⟩ [] (toL "abc")).2.1 (toL "abc") []
      (by decide) rfl).1⟩

/-- C1 (witness): the amended agreement theorem applied to the concrete text
`hello world` with the concrete stemmer/stopword instantiation. -/
theorem C1_normalization_agreement_witness :
    (∀ c ∈ toL "hello world", plainChar c = true) ∧
    (∀ w ∈ wsTokenize (toL "hello world"), 2 < w.length) ∧
    preprocess_query nlId (toL "hello world") =
      tokenize_text (clean_text nlId (toL "hello world")) :=
  ⟨by decide, by decide,
    C1_normalization_agreement nlId (toL "hello world") (by decide) (by decide)
      stemSane_nlId⟩

end IR
